import Mathlib

/-!
# Lock algorithms of `assignment2/problem3-dir/221212-prob3.cpp`

A shallow embedding of the five hand-written locks (`FilterLock`, `BakeryLock`,
`SpinLock`, `TicketLock`, `ArrayQLock`), of the atomic primitives `cas16` and
`atomic_inc`, and of the harness loop `thrBody` / `critical_section`.

Conventions.
* The macro `MAX_NUM_THREADS` is the parameter `n` of every definition.
* A C array `uint32_t a[MAX_NUM_THREADS]` is a function `Nat → Nat`; only the
  indices the code touches are read or written.
* `uint32_t` counters that the code increments without bound (`max_label`,
  `next_ticket`, `serving_ticket`, `next_avail_id`) wrap modulo `2 ^ 32`;
  the harness counters `var1`, `var2` are `uint64_t` and wrap modulo `2 ^ 64`;
  the loop counter `i` of `thrBody` is an `int` and must stay within
  `INT_MAX`.
* Part I models one call executed alone (a spin loop gets a fuel bound and
  reports how many extra times it went round).  Part II models interleaved
  executions, one shared-memory access per step.
-/

namespace Prob3

/-- Width of `uint32_t`. -/
def U32 : Nat := 2 ^ 32

/-- Width of `uint64_t`. -/
def U64 : Nat := 2 ^ 64

/-- Array store `a[i] = v` (also used for the per-thread program counters). -/
def upd {α : Type} (a : Nat → α) (i : Nat) (v : α) : Nat → α :=
  fun k => if k = i then v else a k

/-- `cas16(target, expected, desired)`: the new value of `target` and the
returned success flag (`lock cmpxchgw` followed by `sete`). -/
def cas16 (target expected desired : Nat) : Nat × Bool :=
  if target = expected then (desired, true) else (target, false)

/-- `atomic_inc(target)`: the new value of `target` and the returned old
value (`lock xaddl` with addend 1 on a 32-bit cell). -/
def atomic_inc (target : Nat) : Nat × Nat :=
  ((target + 1) % U32, target)

/-! ## Part I: calls executed alone -/

/-- The abstract base class `LockBase`: `acquire` gets a fuel bound for each of
its spin loops and returns the new state with the number of extra spin
iterations, or `none` when a loop is still spinning after `fuel` evaluations of
its condition; `release` returns `none` when an assertion fails. -/
structure LockBase (σ : Type) where
  acquire : Nat → σ → Nat → Option (σ × Nat)
  release : σ → Nat → Option σ

/-- Chain the spin count `w` of one wait loop with the rest of `acquire`. -/
def addSpins {σ : Type} (w : Nat) : Option (σ × Nat) → Option (σ × Nat)
  | none => none
  | some (s, w') => some (s, w + w')

namespace FilterLock

/-- Fields `level[]` and `victim[]`. -/
structure State where
  level : Nat → Nat
  victim : Nat → Nat

/-- Member initialisers `= {0}`. -/
def fresh : State := ⟨fun _ => 0, fun _ => 0⟩

/-- The inner `for (k = ...; k < MAX_NUM_THREADS; k++)` loop with `rem`
iterations left, starting at index `k`: the final value of `found`. -/
def scanFrom (level : Nat → Nat) (tid i : Nat) : Nat → Nat → Bool
  | 0, _ => false
  | rem + 1, k =>
    if k = tid then scanFrom level tid i rem (k + 1)
    else if level k ≥ i then true
    else scanFrom level tid i rem (k + 1)

/-- One evaluation of the body of `while (1)`: `true` when the loop goes round
again (neither `break` is taken). -/
def keepWaiting (n : Nat) (s : State) (tid i : Nat) : Bool :=
  if s.victim i ≠ tid then false else scanFrom s.level tid i n 0

/-- The `while (1)` loop at level `i`, executed alone: number of extra
iterations, or `none` after `fuel` evaluations. -/
def wait (n : Nat) (s : State) (tid i : Nat) : Nat → Option Nat
  | 0 => none
  | fuel + 1 =>
    if keepWaiting n s tid i then (wait n s tid i fuel).map (· + 1) else some 0

/-- The outer `for (i = ...; i < MAX_NUM_THREADS; i++)` loop with `rem`
iterations left, starting at level `i`. -/
def levels (n tid fuel : Nat) : Nat → Nat → State → Option (State × Nat)
  | 0, _, s => some (s, 0)
  | rem + 1, i, s =>
    let s1 : State := { s with level := upd s.level tid i }
    let s2 : State := { s1 with victim := upd s1.victim i tid }
    match wait n s2 tid i fuel with
    | none => none
    | some w => addSpins w (levels n tid fuel rem (i + 1) s2)

/-- `FilterLock::acquire`. -/
def acquire (n fuel : Nat) (s : State) (tid : Nat) : Option (State × Nat) :=
  levels n tid fuel (n - 1) 1 s

/-- `FilterLock::release`: `none` when the assertion fails. -/
def release (n : Nat) (s : State) (tid : Nat) : Option State :=
  if s.level tid = n - 1 then some { s with level := upd s.level tid 0 } else none

/-- `FilterLock` as a `LockBase`. -/
def lock (n : Nat) : LockBase State := ⟨acquire n, release n⟩

/-- States reachable from a fresh `FilterLock` by completed calls of threads
`tid < n`, paired with the set of holders: `held tid` is true when the last
completed call of `tid` is an `acquire`.  A call of `acquire` that never returns
and a `release` whose assertion fails end the run and add no state. -/
inductive Reach (n : Nat) : State → (Nat → Bool) → Prop
  | fresh : Reach n fresh (fun _ => false)
  | acquire (s : State) (held : Nat → Bool) (tid fuel : Nat) (s' : State) (w : Nat) :
      Reach n s held → tid < n → acquire n fuel s tid = some (s', w) →
      Reach n s' (fun k => if k = tid then true else held k)
  | release (s : State) (held : Nat → Bool) (tid : Nat) (s' : State) :
      Reach n s held → tid < n → release n s tid = some s' →
      Reach n s' (fun k => if k = tid then false else held k)

end FilterLock

namespace BakeryLock

/-- Fields `choosing[]`, `label[]` and `max_label`. -/
structure State where
  choosing : Nat → Nat
  label : Nat → Nat
  max_label : Nat

/-- Member initialisers. -/
def fresh : State := ⟨fun _ => 0, fun _ => 0, 0⟩

/-- The condition of the inner `if` for index `k`. -/
def ahead (s : State) (tid k : Nat) : Bool :=
  decide (s.choosing k ≠ 0) &&
    (decide (s.label k ≠ 0) &&
      (decide (s.label k < s.label tid) ||
        (decide (s.label k = s.label tid) && decide (k < tid))))

/-- The inner `for` loop with `rem` iterations left, starting at index `k`: the
final value of `found`. -/
def scanFrom (s : State) (tid : Nat) : Nat → Nat → Bool
  | 0, _ => false
  | rem + 1, k =>
    if k = tid then scanFrom s tid rem (k + 1)
    else if ahead s tid k then true
    else scanFrom s tid rem (k + 1)

/-- One pass of the scan inside `acquire`: the value of `found`. -/
def found (n : Nat) (s : State) (tid : Nat) : Bool := scanFrom s tid n 0

/-- The `while (1)` loop executed alone. -/
def wait (n : Nat) (s : State) (tid : Nat) : Nat → Option Nat
  | 0 => none
  | fuel + 1 => if found n s tid then (wait n s tid fuel).map (· + 1) else some 0

/-- `BakeryLock::acquire`. -/
def acquire (n fuel : Nat) (s : State) (tid : Nat) : Option (State × Nat) :=
  let s1 : State := { s with choosing := upd s.choosing tid 1 }
  let m := (s1.max_label + 1) % U32
  let s2 : State := { s1 with max_label := m }
  let s3 : State := { s2 with label := upd s2.label tid m }
  match wait n s3 tid fuel with
  | none => none
  | some w => some (s3, w)

/-- `BakeryLock::release`. -/
def release (s : State) (tid : Nat) : Option State :=
  some { s with choosing := upd s.choosing tid 0 }

/-- `BakeryLock` as a `LockBase`. -/
def lock (n : Nat) : LockBase State := ⟨acquire n, release⟩

end BakeryLock

namespace SpinLock

/-- Constant member `UNLOCKED`. -/
def UNLOCKED : Nat := 0

/-- Constant member `LOCKED`. -/
def LOCKED : Nat := 1

/-- Field `lock_taken`. -/
structure State where
  lock_taken : Nat

/-- Member initialiser. -/
def fresh : State := ⟨0⟩

/-- The loop `while (!cas16(lock_taken, UNLOCKED, LOCKED));` executed alone. -/
def spin (s : State) : Nat → Option (State × Nat)
  | 0 => none
  | fuel + 1 =>
    let r := cas16 s.lock_taken UNLOCKED LOCKED
    if r.2 then some (⟨r.1⟩, 0) else addSpins 1 (spin ⟨r.1⟩ fuel)

/-- `SpinLock::acquire`. -/
def acquire (fuel : Nat) (s : State) (_tid : Nat) : Option (State × Nat) :=
  spin s fuel

/-- `SpinLock::release`. -/
def release (s : State) (_tid : Nat) : Option State :=
  some ⟨(cas16 s.lock_taken LOCKED UNLOCKED).1⟩

/-- `SpinLock` as a `LockBase`. -/
def lock : LockBase State := ⟨acquire, release⟩

end SpinLock

namespace TicketLock

/-- Fields `next_ticket` and `serving_ticket`. -/
structure State where
  next_ticket : Nat
  serving_ticket : Nat

/-- Member initialisers. -/
def fresh : State := ⟨0, 0⟩

/-- The loop `while (my_ticket != serving_ticket);` executed alone. -/
def wait (s : State) (my_ticket : Nat) : Nat → Option Nat
  | 0 => none
  | fuel + 1 =>
    if my_ticket ≠ s.serving_ticket then (wait s my_ticket fuel).map (· + 1) else some 0

/-- `TicketLock::acquire`. -/
def acquire (fuel : Nat) (s : State) (_tid : Nat) : Option (State × Nat) :=
  let r := atomic_inc s.next_ticket
  let s1 : State := { s with next_ticket := r.1 }
  match wait s1 r.2 fuel with
  | none => none
  | some w => some (s1, w)

/-- `TicketLock::release`. -/
def release (s : State) (_tid : Nat) : Option State :=
  some { s with serving_ticket := (s.serving_ticket + 1) % U32 }

/-- `TicketLock` as a `LockBase`. -/
def lock : LockBase State := ⟨acquire, release⟩

end TicketLock

namespace ArrayQLock

/-- Fields `next_avail_id`, `queue[]` and `queue_id[]`. -/
structure State where
  next_avail_id : Nat
  queue : Nat → Nat
  queue_id : Nat → Nat

/-- Member initialisers. -/
def fresh : State := ⟨0, fun _ => 0, fun _ => 0⟩

/-- The loop `while (queue[my_queue_id] == 0);` executed alone. -/
def wait (s : State) (slot : Nat) : Nat → Option Nat
  | 0 => none
  | fuel + 1 => if s.queue slot = 0 then (wait s slot fuel).map (· + 1) else some 0

/-- `ArrayQLock::acquire`. -/
def acquire (n fuel : Nat) (s : State) (tid : Nat) : Option (State × Nat) :=
  let r := atomic_inc s.next_avail_id
  let s1 : State := { s with next_avail_id := r.1 }
  let s2 : State := if r.2 = 0 then { s1 with queue := upd s1.queue r.2 1 } else s1
  let slot := r.2 % n
  let s3 : State := { s2 with queue_id := upd s2.queue_id tid slot }
  match wait s3 slot fuel with
  | none => none
  | some w => some (s3, w)

/-- `ArrayQLock::release`. -/
def release (n : Nat) (s : State) (tid : Nat) : Option State :=
  let my_queue_id := s.queue_id tid
  let next_queue_id := (my_queue_id + 1) % n
  let s1 : State := { s with queue := upd s.queue my_queue_id 0 }
  some { s1 with queue := upd s1.queue next_queue_id 1 }

/-- `ArrayQLock` as a `LockBase`. -/
def lock (n : Nat) : LockBase State := ⟨acquire n, release n⟩

end ArrayQLock

/-- The shared counters `(var1, var2)`. -/
abbrev Counters := Nat × Nat

/-- `critical_section()`: `var1++; var2--;` on `uint64_t`. -/
def critical_section (c : Counters) : Counters :=
  ((c.1 + 1) % U64, (c.2 + U64 - 1) % U64)

/-- Largest value of the C `int` loop counter `i` of `thrBody`. -/
def INT_MAX : Nat := 2 ^ 31 - 1

/-- The loop `for (int i = ...; i < K; i++)` of `thrBody`, run by thread `tid`
from the counter value `i`; `rem` bounds the iterations still to come and is
`K - i` at every call.  `none` when an `acquire` does not return, when an
assertion fails, or when `i++` would step past `INT_MAX` (signed overflow, after
which the counter can no longer reach `K`). -/
def thrLoop {σ : Type} (L : LockBase σ) (fuel tid K : Nat) :
    Nat → Nat → σ × Counters → Option (σ × Counters)
  | 0, i, st => if i < K then none else some st
  | rem + 1, i, (s, c) =>
    if i < K then
      match L.acquire fuel s tid with
      | none => none
      | some (s1, _) =>
        let c1 := critical_section c
        match L.release s1 tid with
        | none => none
        | some s2 =>
          if i + 1 ≤ INT_MAX then thrLoop L fuel tid K rem (i + 1) (s2, c1) else none
    else some (s, c)

/-- The loop of `thrBody` with iteration count `K` (the macro `N`), started at
`i = 0`. -/
def thrBody {σ : Type} (L : LockBase σ) (fuel tid K : Nat) (st : σ × Counters) :
    Option (σ × Counters) :=
  thrLoop L fuel tid K K 0 st

/-! ## Part II: interleaved executions

Every thread loops `acquire(tid); critical_section(); release(tid)`.  A system
state is the lock's memory together with one program counter per thread; one
step is one thread performing its next access to the lock's memory (or a
purely local move of its loop control). -/

/-- States reachable by interleaving the steps of threads `0 .. T-1`. -/
inductive Reachable {σ : Type} (init : σ) (step : σ → Nat → σ) (T : Nat) : σ → Prop
  | init : Reachable init step T init
  | step (s : σ) (t : Nat) : Reachable init step T s → t < T → Reachable init step T (step s t)

/-- Run a schedule: the listed threads take one step each, in order. -/
def run {σ : Type} (step : σ → Nat → σ) (sched : List Nat) (s : σ) : σ :=
  sched.foldl step s

namespace SpinLock

/-- Where a thread is: inside the loop of `acquire`, or between the return of
`acquire` and the `cas16` of `release`. -/
inductive PC
  | acq
  | crit
  deriving DecidableEq, Repr

/-- System state. -/
structure Sys where
  mem : State
  pc : Nat → PC

/-- Fresh lock, every thread about to call `acquire`. -/
def init : Sys := ⟨fresh, fun _ => PC.acq⟩

/-- One step of thread `t`: one `cas16`. -/
def step (s : Sys) (t : Nat) : Sys :=
  match s.pc t with
  | PC.acq =>
    let r := cas16 s.mem.lock_taken UNLOCKED LOCKED
    ⟨⟨r.1⟩, if r.2 then upd s.pc t PC.crit else s.pc⟩
  | PC.crit =>
    ⟨⟨(cas16 s.mem.lock_taken LOCKED UNLOCKED).1⟩, upd s.pc t PC.acq⟩

end SpinLock

namespace TicketLock

/-- Where a thread is.  `idx` is a history value: the number of `atomic_inc`
calls executed before the one that gave this thread its ticket.
* `idle`: about to execute `atomic_inc(next_ticket)`;
* `wait my_ticket idx`: about to read `serving_ticket` in the spin loop;
* `crit my_ticket idx`: returned from `acquire`, `release` not started;
* `rel my_ticket idx v`: inside `serving_ticket++`, has read `v`. -/
inductive PC
  | idle
  | wait (my_ticket idx : Nat)
  | crit (my_ticket idx : Nat)
  | rel (my_ticket idx v : Nat)
  deriving DecidableEq, Repr

/-- System state; `issued`, `entered` and `released` are history counters of
the `atomic_inc` calls, of the returns from `acquire` and of the completed
`release` calls. -/
structure Sys where
  mem : State
  pc : Nat → PC
  issued : Nat
  entered : Nat
  released : Nat

/-- Fresh lock, every thread about to call `acquire`. -/
def init : Sys := ⟨fresh, fun _ => PC.idle, 0, 0, 0⟩

/-- One step of thread `t`. -/
def step (s : Sys) (t : Nat) : Sys :=
  match s.pc t with
  | PC.idle =>
    let r := atomic_inc s.mem.next_ticket
    { s with mem := { s.mem with next_ticket := r.1 },
             pc := upd s.pc t (PC.wait r.2 s.issued),
             issued := s.issued + 1 }
  | PC.wait my_ticket idx =>
    if my_ticket ≠ s.mem.serving_ticket then s
    else { s with pc := upd s.pc t (PC.crit my_ticket idx), entered := s.entered + 1 }
  | PC.crit my_ticket idx =>
    { s with pc := upd s.pc t (PC.rel my_ticket idx s.mem.serving_ticket) }
  | PC.rel _ _ v =>
    { s with mem := { s.mem with serving_ticket := (v + 1) % U32 },
             pc := upd s.pc t PC.idle,
             released := s.released + 1 }

/-- The ticket index a thread holds, if it holds a ticket. -/
def PC.idx? : PC → Option Nat
  | PC.idle => none
  | PC.wait _ idx => some idx
  | PC.crit _ idx => some idx
  | PC.rel _ idx _ => some idx

end TicketLock

namespace BakeryLock

/-- Where a thread is.
* `idle`: about to write `choosing[tid] = 1`;
* `readMax`: about to read `max_label`;
* `writeMax r`: has read `r`, about to write `max_label = r + 1`;
* `writeLabel v`: about to write `label[tid] = v`;
* `scan k`: at the head of the inner `for` with index `k`, about to read
  `choosing[k]` when `k` is another thread;
* `cmp0 k`: about to read `label[k]` for `label[k] != 0`;
* `cmpLt1 k`, `cmpLt2 k a`: about to read `label[k]`, then `label[tid]`, for
  `label[k] < label[tid]`;
* `cmpEq1 k`, `cmpEq2 k a`: the same for `label[k] == label[tid]`;
* `crit`: returned from `acquire`, `release` not started. -/
inductive PC
  | idle
  | readMax
  | writeMax (r : Nat)
  | writeLabel (v : Nat)
  | scan (k : Nat)
  | cmp0 (k : Nat)
  | cmpLt1 (k : Nat)
  | cmpLt2 (k a : Nat)
  | cmpEq1 (k : Nat)
  | cmpEq2 (k a : Nat)
  | crit
  deriving DecidableEq, Repr

/-- System state. -/
structure Sys where
  mem : State
  pc : Nat → PC

/-- Fresh lock, every thread about to call `acquire`. -/
def init : Sys := ⟨fresh, fun _ => PC.idle⟩

/-- One step of thread `t` with `MAX_NUM_THREADS = n`. -/
def step (n : Nat) (s : Sys) (t : Nat) : Sys :=
  match s.pc t with
  | PC.idle =>
    ⟨{ s.mem with choosing := upd s.mem.choosing t 1 }, upd s.pc t PC.readMax⟩
  | PC.readMax => { s with pc := upd s.pc t (PC.writeMax s.mem.max_label) }
  | PC.writeMax r =>
    ⟨{ s.mem with max_label := (r + 1) % U32 }, upd s.pc t (PC.writeLabel ((r + 1) % U32))⟩
  | PC.writeLabel v =>
    ⟨{ s.mem with label := upd s.mem.label t v }, upd s.pc t (PC.scan 0)⟩
  | PC.scan k =>
    if k < n then
      if k = t then { s with pc := upd s.pc t (PC.scan (k + 1)) }
      else if s.mem.choosing k ≠ 0 then { s with pc := upd s.pc t (PC.cmp0 k) }
      else { s with pc := upd s.pc t (PC.scan (k + 1)) }
    else { s with pc := upd s.pc t PC.crit }
  | PC.cmp0 k =>
    if s.mem.label k ≠ 0 then { s with pc := upd s.pc t (PC.cmpLt1 k) }
    else { s with pc := upd s.pc t (PC.scan (k + 1)) }
  | PC.cmpLt1 k => { s with pc := upd s.pc t (PC.cmpLt2 k (s.mem.label k)) }
  | PC.cmpLt2 k a =>
    if a < s.mem.label t then { s with pc := upd s.pc t (PC.scan 0) }
    else { s with pc := upd s.pc t (PC.cmpEq1 k) }
  | PC.cmpEq1 k => { s with pc := upd s.pc t (PC.cmpEq2 k (s.mem.label k)) }
  | PC.cmpEq2 k a =>
    if a = s.mem.label t ∧ k < t then { s with pc := upd s.pc t (PC.scan 0) }
    else { s with pc := upd s.pc t (PC.scan (k + 1)) }
  | PC.crit =>
    ⟨{ s.mem with choosing := upd s.mem.choosing t 0 }, upd s.pc t PC.idle⟩

end BakeryLock

namespace ArrayQLock

/-- Where a thread is.
* `idle`: about to execute `atomic_inc(next_avail_id)`;
* `init0`: drew 0, about to write `queue[0] = 1`;
* `setId q`: holds `my_queue_id = q`, about to write `queue_id[tid] = q % n`;
* `wait m`: about to read `queue[m]` in the spin loop;
* `crit`: returned from `acquire`, `release` not started;
* `rel1 m`: has read `queue_id[tid] = m`, about to write `queue[m] = 0`;
* `rel2 m`: about to write `queue[m] = 1`, `m` being the next slot. -/
inductive PC
  | idle
  | init0
  | setId (q : Nat)
  | wait (m : Nat)
  | crit
  | rel1 (m : Nat)
  | rel2 (m : Nat)
  deriving DecidableEq, Repr

/-- System state. -/
structure Sys where
  mem : State
  pc : Nat → PC

/-- Fresh lock, every thread about to call `acquire`. -/
def init : Sys := ⟨fresh, fun _ => PC.idle⟩

/-- One step of thread `t` with `MAX_NUM_THREADS = n`. -/
def step (n : Nat) (s : Sys) (t : Nat) : Sys :=
  match s.pc t with
  | PC.idle =>
    let r := atomic_inc s.mem.next_avail_id
    ⟨{ s.mem with next_avail_id := r.1 },
      upd s.pc t (if r.2 = 0 then PC.init0 else PC.setId r.2)⟩
  | PC.init0 => ⟨{ s.mem with queue := upd s.mem.queue 0 1 }, upd s.pc t (PC.setId 0)⟩
  | PC.setId q =>
    ⟨{ s.mem with queue_id := upd s.mem.queue_id t (q % n) }, upd s.pc t (PC.wait (q % n))⟩
  | PC.wait m =>
    if s.mem.queue m = 0 then s else { s with pc := upd s.pc t PC.crit }
  | PC.crit => { s with pc := upd s.pc t (PC.rel1 (s.mem.queue_id t)) }
  | PC.rel1 m =>
    ⟨{ s.mem with queue := upd s.mem.queue m 0 }, upd s.pc t (PC.rel2 ((m + 1) % n))⟩
  | PC.rel2 m => ⟨{ s.mem with queue := upd s.mem.queue m 1 }, upd s.pc t PC.idle⟩

end ArrayQLock

namespace FilterLock

/-- Where a thread is.
* `idle`: about to call `acquire`;
* `setLevel i`: in iteration `i` of the level loop, about to write
  `level[tid] = i`;
* `setVictim i`: about to write `victim[i] = tid`;
* `checkVictim i`: at the head of `while (1)`, about to read `victim[i]`;
* `scan i k`: at the head of the inner `for` with index `k`, about to read
  `level[k]` when `k` is another thread;
* `crit`: returned from `acquire`, `release` not started;
* `rel`: the assertion of `release` passed, about to write `level[tid] = 0`;
* `failed`: the assertion of `release` failed. -/
inductive PC
  | idle
  | setLevel (i : Nat)
  | setVictim (i : Nat)
  | checkVictim (i : Nat)
  | scan (i k : Nat)
  | crit
  | rel
  | failed
  deriving DecidableEq, Repr

/-- System state. -/
structure Sys where
  mem : State
  pc : Nat → PC

/-- Fresh lock, every thread about to call `acquire`. -/
def init : Sys := ⟨fresh, fun _ => PC.idle⟩

/-- The head of the level loop, `i < MAX_NUM_THREADS`: next iteration, or
return from `acquire`. -/
def enter (n i : Nat) : PC := if i < n then PC.setLevel i else PC.crit

/-- One step of thread `t` with `MAX_NUM_THREADS = n`. -/
def step (n : Nat) (s : Sys) (t : Nat) : Sys :=
  match s.pc t with
  | PC.idle => { s with pc := upd s.pc t (enter n 1) }
  | PC.setLevel i =>
    ⟨{ s.mem with level := upd s.mem.level t i }, upd s.pc t (PC.setVictim i)⟩
  | PC.setVictim i =>
    ⟨{ s.mem with victim := upd s.mem.victim i t }, upd s.pc t (PC.checkVictim i)⟩
  | PC.checkVictim i =>
    if s.mem.victim i ≠ t then { s with pc := upd s.pc t (enter n (i + 1)) }
    else { s with pc := upd s.pc t (PC.scan i 0) }
  | PC.scan i k =>
    if k < n then
      if k = t then { s with pc := upd s.pc t (PC.scan i (k + 1)) }
      else if s.mem.level k ≥ i then { s with pc := upd s.pc t (PC.checkVictim i) }
      else { s with pc := upd s.pc t (PC.scan i (k + 1)) }
    else { s with pc := upd s.pc t (enter n (i + 1)) }
  | PC.crit =>
    if s.mem.level t = n - 1 then { s with pc := upd s.pc t PC.rel }
    else { s with pc := upd s.pc t PC.failed }
  | PC.rel => ⟨{ s.mem with level := upd s.mem.level t 0 }, upd s.pc t PC.idle⟩
  | PC.failed => s

/-- Thread `t` has completed the level loop of `acquire` and has not finished
`release`. -/
def holds (s : Sys) (t : Nat) : Prop :=
  s.pc t = PC.crit ∨ s.pc t = PC.rel ∨ s.pc t = PC.failed

end FilterLock

/-- The quiescent state of a two-slot `ArrayQLock` after `k` tickets have been
drawn and released: `next_avail_id = k`, slot `k % 2` is the active one, and
threads 0 and 1 are about to call `acquire`. -/
def ArrayQLock.Quiet (k : Nat) (s : ArrayQLock.Sys) : Prop :=
  s.mem.next_avail_id = k ∧
    s.mem.queue 0 = (if k % 2 = 0 then 1 else 0) ∧
    s.mem.queue 1 = (if k % 2 = 1 then 1 else 0) ∧
    s.pc 0 = ArrayQLock.PC.idle ∧ s.pc 1 = ArrayQLock.PC.idle

/-- The inductive invariant of the `TicketLock` system with `T` threads. -/
structure TicketLock.Inv (T : Nat) (s : TicketLock.Sys) : Prop where
  next : s.mem.next_ticket = s.issued % U32
  serv : s.mem.serving_ticket = s.released % U32
  le : s.released ≤ s.issued
  out : ∀ i, T ≤ i → s.pc i = TicketLock.PC.idle
  wait : ∀ i t g, s.pc i = TicketLock.PC.wait t g →
    t = g % U32 ∧ s.released ≤ g ∧ g < s.issued
  crit : ∀ i t g, s.pc i = TicketLock.PC.crit t g →
    t = g % U32 ∧ g = s.released ∧ g < s.issued ∧ s.entered = g + 1
  rel : ∀ i t g v, s.pc i = TicketLock.PC.rel t g v →
    t = g % U32 ∧ g = s.released ∧ g < s.issued ∧ s.entered = g + 1 ∧
      v = s.mem.serving_ticket
  inj : ∀ i j g, (s.pc i).idx? = some g → (s.pc j).idx? = some g → i = j
  surj : ∀ g, s.released ≤ g → g < s.issued → ∃ i, (s.pc i).idx? = some g
  quiet : (∀ i t g, s.pc i ≠ TicketLock.PC.crit t g) →
    (∀ i t g v, s.pc i ≠ TicketLock.PC.rel t g v) → s.entered = s.released

/-- What the program counter `p` of a thread says about its own `level[]`
entry `l`. -/
def FilterLock.levelOk (n : Nat) (p : FilterLock.PC) (l : Nat) : Prop :=
  match p with
  | FilterLock.PC.idle => l = 0
  | FilterLock.PC.setLevel i => 1 ≤ i ∧ i < n ∧ l + 1 = i
  | FilterLock.PC.setVictim i => 1 ≤ i ∧ i < n ∧ l = i
  | FilterLock.PC.checkVictim i => 1 ≤ i ∧ i < n ∧ l = i
  | FilterLock.PC.scan i _ => 1 ≤ i ∧ i < n ∧ l = i
  | FilterLock.PC.crit => l = n - 1
  | FilterLock.PC.rel => l = n - 1
  | FilterLock.PC.failed => False

/-- Thread `c` is held back at level `j`: it has written `level[c] = j` and
either has not yet named itself victim, or is the current victim of level `j`
and is inside the wait loop of that level. -/
def FilterLock.blockedAt (s : FilterLock.Sys) (j c : Nat) : Prop :=
  s.pc c = FilterLock.PC.setVictim j ∨
    (s.mem.victim j = c ∧
      (s.pc c = FilterLock.PC.checkVictim j ∨ ∃ k, s.pc c = FilterLock.PC.scan j k))

/-- The inductive invariant of the `FilterLock` system. -/
structure FilterLock.Inv (n : Nat) (s : FilterLock.Sys) : Prop where
  out : ∀ t, n ≤ t → s.pc t = FilterLock.PC.idle
  ok : ∀ t, FilterLock.levelOk n (s.pc t) (s.mem.level t)
  scanned : ∀ v j k, s.pc v = FilterLock.PC.scan j k → s.mem.victim j = v →
    ∀ u, u < k → u ≠ v → (s.mem.level u < j ∨ s.pc u = FilterLock.PC.setVictim j)
  blocked : ∀ j a b, 1 ≤ j → a ≠ b → j ≤ s.mem.level a → j ≤ s.mem.level b →
    ∃ c, FilterLock.blockedAt s j c

/-- The threads whose `level[]` entry is at least `j`. -/
def FilterLock.atLevel (n : Nat) (s : FilterLock.Sys) (j : Nat) : Finset Nat :=
  (Finset.range n).filter (fun t => j ≤ s.mem.level t)

/-- A state of `choosing[]` and `label[]` for two threads in which thread 0 is
choosing and still has label 0 while thread 1 has label 1. -/
def BakeryLock.unlabelled : BakeryLock.State :=
  ⟨fun _ => 1, fun k => if k = 0 then 0 else 1, 1⟩

/-- The schedule that breaks `BakeryLock` with two threads: thread 0 sets
`choosing[0]` and reads `max_label`; thread 1 runs its whole `acquire`, skipping
thread 0 because `label[0]` is still 0; thread 0 then takes label 1 as well and
finds `(label[1], 1)` not smaller than `(label[0], 0)`. -/
def BakeryLock.badSchedule : List Nat :=
  [0, 0] ++ List.replicate 8 1 ++ List.replicate 10 0

/-! ## Theorems, part I -/

theorem FilterLock.filter_scanFrom_iff (level : Nat → Nat) (tid i : Nat) :
    ∀ rem k, FilterLock.scanFrom level tid i rem k = true ↔
      ∃ j, k ≤ j ∧ j < k + rem ∧ j ≠ tid ∧ i ≤ level j := by
  intro rem
  induction rem with
  | zero =>
    intro k
    simp only [FilterLock.scanFrom, Bool.false_eq_true, false_iff]
    rintro ⟨j, h1, h2, -⟩
    omega
  | succ rem ih =>
    intro k
    simp only [FilterLock.scanFrom]
    by_cases hk : k = tid
    · rw [if_pos hk, ih]
      constructor
      · rintro ⟨j, h1, h2, h3, h4⟩
        exact ⟨j, by omega, by omega, h3, h4⟩
      · rintro ⟨j, h1, h2, h3, h4⟩
        have : j ≠ k := by rw [hk]; exact h3
        exact ⟨j, by omega, by omega, h3, h4⟩
    · rw [if_neg hk]
      by_cases hl : level k ≥ i
      · rw [if_pos hl]
        simp only [true_iff]
        exact ⟨k, le_refl _, by omega, hk, hl⟩
      · rw [if_neg hl, ih]
        constructor
        · rintro ⟨j, h1, h2, h3, h4⟩
          exact ⟨j, by omega, by omega, h3, h4⟩
        · rintro ⟨j, h1, h2, h3, h4⟩
          have : j ≠ k := by
            intro e
            rw [e] at h4
            exact hl h4
          exact ⟨j, by omega, by omega, h3, h4⟩

theorem BakeryLock.bakery_scanFrom_iff (s : BakeryLock.State) (tid : Nat) :
    ∀ rem k, BakeryLock.scanFrom s tid rem k = true ↔
      ∃ j, k ≤ j ∧ j < k + rem ∧ j ≠ tid ∧ BakeryLock.ahead s tid j = true := by
  intro rem
  induction rem with
  | zero =>
    intro k
    simp only [BakeryLock.scanFrom, Bool.false_eq_true, false_iff]
    rintro ⟨j, h1, h2, -⟩
    omega
  | succ rem ih =>
    intro k
    simp only [BakeryLock.scanFrom]
    by_cases hk : k = tid
    · rw [if_pos hk, ih]
      constructor
      · rintro ⟨j, h1, h2, h3, h4⟩
        exact ⟨j, by omega, by omega, h3, h4⟩
      · rintro ⟨j, h1, h2, h3, h4⟩
        have : j ≠ k := by rw [hk]; exact h3
        exact ⟨j, by omega, by omega, h3, h4⟩
    · rw [if_neg hk]
      by_cases hl : BakeryLock.ahead s tid k = true
      · rw [if_pos hl]
        simp only [true_iff]
        exact ⟨k, le_refl _, by omega, hk, hl⟩
      · rw [if_neg hl, ih]
        constructor
        · rintro ⟨j, h1, h2, h3, h4⟩
          exact ⟨j, by omega, by omega, h3, h4⟩
        · rintro ⟨j, h1, h2, h3, h4⟩
          have : j ≠ k := by
            intro e
            rw [e] at h4
            exact hl h4
          exact ⟨j, by omega, by omega, h3, h4⟩

theorem BakeryLock.found_iff (n : Nat) (s : BakeryLock.State) (tid : Nat) :
    BakeryLock.found n s tid = true ↔
      ∃ k, k < n ∧ k ≠ tid ∧ s.choosing k ≠ 0 ∧ s.label k ≠ 0 ∧
        (s.label k < s.label tid ∨ (s.label k = s.label tid ∧ k < tid)) := by
  unfold BakeryLock.found
  rw [BakeryLock.bakery_scanFrom_iff]
  constructor
  · rintro ⟨j, -, h2, h3, h4⟩
    simp only [BakeryLock.ahead, Bool.and_eq_true, Bool.or_eq_true, decide_eq_true_eq] at h4
    exact ⟨j, by omega, h3, h4.1, h4.2.1, h4.2.2⟩
  · rintro ⟨k, h1, h2, h3, h4, h5⟩
    refine ⟨k, Nat.zero_le _, by omega, h2, ?_⟩
    simp only [BakeryLock.ahead, Bool.and_eq_true, Bool.or_eq_true, decide_eq_true_eq]
    exact ⟨h3, h4, h5⟩

/-- C10, as stated, fails: with `choosing = {1, 1}` and `label = {0, 1}` the pair
`(label[0], 0)` is lexicographically smaller than `(label[1], 1)`, yet the scan
of thread 1 leaves `found = false`. -/
theorem C10_counterexample :
    ¬ (BakeryLock.found 2 BakeryLock.unlabelled 1 = true ↔
        ∃ k, k < 2 ∧ k ≠ 1 ∧ BakeryLock.unlabelled.choosing k ≠ 0 ∧
          (BakeryLock.unlabelled.label k < BakeryLock.unlabelled.label 1 ∨
            (BakeryLock.unlabelled.label k = BakeryLock.unlabelled.label 1 ∧ k < 1))) := by
  intro h
  have hf : BakeryLock.found 2 BakeryLock.unlabelled 1 = false := by decide
  rw [hf] at h
  have : (false = true) := h.mpr ⟨0, by decide, by decide, by decide, Or.inl (by decide)⟩
  exact Bool.false_ne_true this

/-- C10, amended: one pass of the scan inside `BakeryLock::acquire` sets
`found` if and only if some thread `k ≠ tid`, `k < MAX_NUM_THREADS`, has
`choosing[k]` set, a non-zero `label[k]`, and `(label[k], k)` lexicographically
smaller than `(label[tid], tid)`. -/
theorem C10_found_iff (n : Nat) (s : BakeryLock.State) (tid : Nat) :
    BakeryLock.found n s tid = true ↔
      ∃ k, k < n ∧ k ≠ tid ∧ s.choosing k ≠ 0 ∧ s.label k ≠ 0 ∧
        (s.label k < s.label tid ∨ (s.label k = s.label tid ∧ k < tid)) :=
  BakeryLock.found_iff n s tid

/-- C9, as stated, fails: right after construction `queue[0]` is zero. -/
theorem C9_counterexample :
    ¬ (ArrayQLock.fresh.queue 0 ≠ 0 ∧
        ∀ j, 0 < j → j < 1 → ArrayQLock.fresh.queue j = 0) := by
  intro h
  exact h.1 rfl

/-- C9, amended: a freshly constructed `ArrayQLock` has every slot of `queue[]`
inactive, slot 0 included; slot 0 is activated by the first `acquire`, which
draws 0 from `next_avail_id`, stores 1 to `queue[0]` before it waits, and
leaves every other slot zero. -/
theorem C9_slot0_activated_by_first_acquire (n fuel tid : Nat) :
    (∀ j, ArrayQLock.fresh.queue j = 0) ∧
      ∃ s, ArrayQLock.acquire n (fuel + 1) ArrayQLock.fresh tid = some (s, 0) ∧
        s.queue 0 = 1 ∧ ∀ j, 0 < j → s.queue j = 0 := by
  refine ⟨fun _ => rfl, ?_⟩
  refine ⟨⟨1 % U32, upd (fun _ => 0) 0 1, upd (fun _ => 0) tid 0⟩, ?_, ?_, ?_⟩
  · simp [ArrayQLock.acquire, ArrayQLock.fresh, atomic_inc, ArrayQLock.wait, upd]
  · simp [upd]
  · intro j hj
    simp only [upd]
    rw [if_neg (by omega)]

theorem FilterLock.wait_free (n : Nat) (s : FilterLock.State) (tid i fuel : Nat)
    (hi : 1 ≤ i) (h0 : ∀ k, k ≠ tid → s.level k = 0) :
    FilterLock.wait n s tid i (fuel + 1) = some 0 := by
  have hk : FilterLock.keepWaiting n s tid i = false := by
    unfold FilterLock.keepWaiting
    split
    · rfl
    · rw [Bool.eq_false_iff]
      intro hs
      rw [FilterLock.filter_scanFrom_iff] at hs
      obtain ⟨j, -, -, hj, hl⟩ := hs
      rw [h0 j hj] at hl
      omega
  simp [FilterLock.wait, hk]

theorem FilterLock.levels_alone (n tid fuel : Nat) :
    ∀ rem i (s : FilterLock.State), 1 ≤ i → (∀ k, k ≠ tid → s.level k = 0) →
      ∃ s', FilterLock.levels n tid (fuel + 1) rem i s = some (s', 0) ∧
        (∀ k, k ≠ tid → s'.level k = s.level k) ∧
        (0 < rem → s'.level tid = i + rem - 1) := by
  intro rem
  induction rem with
  | zero =>
    intro i s _ _
    exact ⟨s, rfl, fun _ _ => rfl, fun h => absurd h (lt_irrefl 0)⟩
  | succ rem ih =>
    intro i s hi h0
    have h0' : ∀ k, k ≠ tid →
        (upd s.level tid i) k = 0 := by
      intro k hk
      simp only [upd, if_neg hk]
      exact h0 k hk
    obtain ⟨s', hs', hl, ht⟩ :=
      ih (i + 1) ⟨upd s.level tid i, upd s.victim i tid⟩ (by omega) h0'
    refine ⟨s', ?_, ?_, ?_⟩
    · simp only [FilterLock.levels]
      rw [FilterLock.wait_free n _ tid i fuel hi h0', hs']
      rfl
    · intro k hk
      rw [hl k hk]
      simp only [upd, if_neg hk]
    · intro _
      rcases Nat.eq_zero_or_pos rem with hr | hr
      · subst hr
        simp only [FilterLock.levels, addSpins] at hs'
        have : s' = ⟨upd s.level tid i, upd s.victim i tid⟩ := by
          injection hs' with h1
          injection h1 with h2
          exact h2.symm
        rw [this]
        simp [upd]
      · rw [ht hr]
        omega

theorem critical_section_iterate (K : Nat) :
    ∀ a b, a + K < U64 → K ≤ b → b < U64 →
      (critical_section^[K]) (a, b) = (a + K, b - K) := by
  induction K with
  | zero => intro a b _ _ _; rfl
  | succ K ih =>
    intro a b ha hb hb'
    rw [Function.iterate_succ_apply]
    have h1 : critical_section (a, b) = (a + 1, b - 1) := by
      simp only [critical_section, U64] at *
      rw [Nat.mod_eq_of_lt (by omega)]
      have : (b + 2 ^ 64 - 1) = (b - 1) + 2 ^ 64 := by omega
      rw [this, Nat.add_mod_right, Nat.mod_eq_of_lt (by omega)]
    rw [h1, ih (a + 1) (b - 1) (by omega) (by omega) (by omega)]
    congr 1 <;> omega

theorem thrLoop_invariant {σ : Type} (L : LockBase σ) (fuel tid K : Nat) (hK : K ≤ INT_MAX)
    (Inv : σ → Prop)
    (hcycle : ∀ s, Inv s → ∃ s1 w s2,
      L.acquire fuel s tid = some (s1, w) ∧ L.release s1 tid = some s2 ∧ Inv s2) :
    ∀ rem i s c, i + rem = K → Inv s →
      ∃ s', thrLoop L fuel tid K rem i (s, c) = some (s', (critical_section^[rem]) c) := by
  intro rem
  induction rem with
  | zero =>
    intro i s c hi _
    refine ⟨s, ?_⟩
    simp only [thrLoop]
    rw [if_neg (by omega)]
    rfl
  | succ rem ih =>
    intro i s c hi hs
    obtain ⟨s1, w, s2, ha, hr, hinv⟩ := hcycle s hs
    obtain ⟨s', h'⟩ := ih (i + 1) s2 (critical_section c) (by omega) hinv
    refine ⟨s', ?_⟩
    simp only [thrLoop, ha, hr, Function.iterate_succ_apply]
    rw [if_pos (by omega), if_pos (by omega), h']

theorem thrBody_invariant {σ : Type} (L : LockBase σ) (fuel tid K : Nat) (hK : K ≤ INT_MAX)
    (Inv : σ → Prop)
    (hcycle : ∀ s, Inv s → ∃ s1 w s2,
      L.acquire fuel s tid = some (s1, w) ∧ L.release s1 tid = some s2 ∧ Inv s2) :
    ∀ s c, Inv s →
      ∃ s', thrBody L fuel tid K (s, c) = some (s', (critical_section^[K]) c) := by
  intro s c hs
  exact thrLoop_invariant L fuel tid K hK Inv hcycle K 0 s c (by omega) hs

theorem thrLoop_overflow {σ : Type} (L : LockBase σ) (fuel tid K : Nat) (hK : INT_MAX < K) :
    ∀ rem i (st : σ × Counters), i + rem = K → i ≤ INT_MAX →
      thrLoop L fuel tid K rem i st = none := by
  intro rem
  induction rem with
  | zero =>
    intro i st hi hle
    omega
  | succ rem ih =>
    intro i st hi hle
    obtain ⟨s, c⟩ := st
    simp only [thrLoop]
    rw [if_pos (by omega)]
    cases ha : L.acquire fuel s tid with
    | none => rfl
    | some r =>
      obtain ⟨s1, w⟩ := r
      cases hr : L.release s1 tid with
      | none => simp only [hr]
      | some s2 =>
        simp only [hr]
        by_cases hov : i + 1 ≤ INT_MAX
        · rw [if_pos hov]
          exact ih (i + 1) _ (by omega) hov
        · rw [if_neg hov]

theorem thrBody_overflow {σ : Type} (L : LockBase σ) (fuel tid K : Nat) (hK : INT_MAX < K)
    (st : σ × Counters) : thrBody L fuel tid K st = none :=
  thrLoop_overflow L fuel tid K hK K 0 st (by omega) (Nat.zero_le _)

theorem FilterLock.filter_cycle_one (fuel : Nat) (s : FilterLock.State) (hs : s.level 0 = 0) :
    ∃ s1 w s2, (FilterLock.lock 1).acquire fuel s 0 = some (s1, w) ∧
      (FilterLock.lock 1).release s1 0 = some s2 ∧ s2.level 0 = 0 := by
  refine ⟨s, 0, ⟨upd s.level 0 0, s.victim⟩, rfl, ?_, ?_⟩
  · simp [FilterLock.lock, FilterLock.release, hs]
  · simp [upd]

theorem BakeryLock.bakery_cycle_one (fuel : Nat) (s : BakeryLock.State) :
    ∃ s1 w s2, (BakeryLock.lock 1).acquire (fuel + 1) s 0 = some (s1, w) ∧
      (BakeryLock.lock 1).release s1 0 = some s2 ∧ True := by
  have hf : ∀ t : BakeryLock.State, BakeryLock.found 1 t 0 = false := by
    intro t
    simp [BakeryLock.found, BakeryLock.scanFrom]
  refine ⟨⟨upd s.choosing 0 1, upd s.label 0 ((s.max_label + 1) % U32),
    (s.max_label + 1) % U32⟩, 0, _, ?_, rfl, trivial⟩
  simp [BakeryLock.lock, BakeryLock.acquire, BakeryLock.wait, hf]

theorem SpinLock.spin_cycle (fuel tid : Nat) (s : SpinLock.State) (hs : s.lock_taken = 0) :
    ∃ s1 w s2, SpinLock.lock.acquire (fuel + 1) s tid = some (s1, w) ∧
      SpinLock.lock.release s1 tid = some s2 ∧ s2.lock_taken = 0 := by
  refine ⟨⟨1⟩, 0, ⟨0⟩, ?_, ?_, rfl⟩
  · simp [SpinLock.lock, SpinLock.acquire, SpinLock.spin, cas16, hs, SpinLock.UNLOCKED,
      SpinLock.LOCKED]
  · simp [SpinLock.lock, SpinLock.release, cas16, SpinLock.UNLOCKED, SpinLock.LOCKED]

theorem TicketLock.ticket_cycle (fuel tid : Nat) (s : TicketLock.State)
    (hs : s.next_ticket = s.serving_ticket) :
    ∃ s1 w s2, TicketLock.lock.acquire (fuel + 1) s tid = some (s1, w) ∧
      TicketLock.lock.release s1 tid = some s2 ∧ s2.next_ticket = s2.serving_ticket := by
  refine ⟨⟨(s.next_ticket + 1) % U32, s.serving_ticket⟩, 0,
    ⟨(s.next_ticket + 1) % U32, (s.serving_ticket + 1) % U32⟩, ?_, ?_, ?_⟩
  · simp [TicketLock.lock, TicketLock.acquire, TicketLock.wait, atomic_inc, hs]
  · simp [TicketLock.lock, TicketLock.release]
  · simp [hs]

theorem ArrayQLock.arrayq_cycle_one (fuel : Nat) (s : ArrayQLock.State)
    (hs : s.next_avail_id = 0 ∨ s.queue 0 = 1) :
    ∃ s1 w s2, (ArrayQLock.lock 1).acquire (fuel + 1) s 0 = some (s1, w) ∧
      (ArrayQLock.lock 1).release s1 0 = some s2 ∧
      (s2.next_avail_id = 0 ∨ s2.queue 0 = 1) := by
  have key : ∀ t : ArrayQLock.State, t.queue 0 ≠ 0 →
      ArrayQLock.wait ⟨t.next_avail_id, t.queue, upd t.queue_id 0 0⟩ 0 (fuel + 1) = some 0 := by
    intro t ht
    simp only [ArrayQLock.wait]
    rw [if_neg ht]
  by_cases h0 : s.next_avail_id = 0
  · refine ⟨⟨(s.next_avail_id + 1) % U32, upd s.queue s.next_avail_id 1, upd s.queue_id 0 0⟩,
      0, _, ?_, rfl, Or.inr ?_⟩
    · simp only [ArrayQLock.lock, ArrayQLock.acquire, atomic_inc, Nat.mod_one, if_pos h0]
      rw [key ⟨_, upd s.queue s.next_avail_id 1, s.queue_id⟩ (by simp [upd, h0])]
    · simp [upd]
  · have h1 : s.queue 0 = 1 := by
      rcases hs with h | h
      · exact absurd h h0
      · exact h
    refine ⟨⟨(s.next_avail_id + 1) % U32, s.queue, upd s.queue_id 0 0⟩,
      0, _, ?_, rfl, Or.inr ?_⟩
    · simp only [ArrayQLock.lock, ArrayQLock.acquire, atomic_inc, Nat.mod_one, if_neg h0]
      rw [key ⟨_, s.queue, s.queue_id⟩ (by simp [h1])]
    · simp [upd]

/-- C1, as stated, fails for iteration counts past the range of the `int` loop
counter: with `K = 2 ^ 31` the counter `i` of `thrBody` reaches `INT_MAX` below
`K`, `i++` overflows, and for none of the five locks does the loop end with
`var1 = K`, `var2 = 1`. -/
theorem C1_counterexample :
    thrBody (FilterLock.lock 1) 1 0 (2 ^ 31) (FilterLock.fresh, (0, 2 ^ 31 + 1)) = none ∧
    thrBody (BakeryLock.lock 1) 1 0 (2 ^ 31) (BakeryLock.fresh, (0, 2 ^ 31 + 1)) = none ∧
    thrBody SpinLock.lock 1 0 (2 ^ 31) (SpinLock.fresh, (0, 2 ^ 31 + 1)) = none ∧
    thrBody TicketLock.lock 1 0 (2 ^ 31) (TicketLock.fresh, (0, 2 ^ 31 + 1)) = none ∧
    thrBody (ArrayQLock.lock 1) 1 0 (2 ^ 31) (ArrayQLock.fresh, (0, 2 ^ 31 + 1)) = none :=
  ⟨thrBody_overflow _ 1 0 (2 ^ 31) (by decide) _,
    thrBody_overflow _ 1 0 (2 ^ 31) (by decide) _,
    thrBody_overflow _ 1 0 (2 ^ 31) (by decide) _,
    thrBody_overflow _ 1 0 (2 ^ 31) (by decide) _,
    thrBody_overflow _ 1 0 (2 ^ 31) (by decide) _⟩

/-- C1, amended: with `NUM_THREADS = MAX_NUM_THREADS = 1`, for every iteration
count `K ≤ INT_MAX = 2 ^ 31 - 1` (what the `int` loop counter can count to),
thread 0 running the loop of `thrBody` from a fresh lock and counters
`(0, K + 1)` gets through every `acquire` with any positive spin bound, fails no
assertion, and ends with `var1 = K`, `var2 = 1`, for `FilterLock`,
`BakeryLock`, `SpinLock`, `TicketLock` and `ArrayQLock`. -/
theorem C1_single_thread_round_trip (K fuel : Nat) (hK : K ≤ INT_MAX) :
    (∃ s, thrBody (FilterLock.lock 1) (fuel + 1) 0 K (FilterLock.fresh, (0, K + 1))
        = some (s, (K, 1))) ∧
    (∃ s, thrBody (BakeryLock.lock 1) (fuel + 1) 0 K (BakeryLock.fresh, (0, K + 1))
        = some (s, (K, 1))) ∧
    (∃ s, thrBody SpinLock.lock (fuel + 1) 0 K (SpinLock.fresh, (0, K + 1))
        = some (s, (K, 1))) ∧
    (∃ s, thrBody TicketLock.lock (fuel + 1) 0 K (TicketLock.fresh, (0, K + 1))
        = some (s, (K, 1))) ∧
    (∃ s, thrBody (ArrayQLock.lock 1) (fuel + 1) 0 K (ArrayQLock.fresh, (0, K + 1))
        = some (s, (K, 1))) := by
  have hK64 : K + 1 < U64 := by
    simp only [INT_MAX, U64] at *
    omega
  have hc : (critical_section^[K]) (0, K + 1) = (K, 1) := by
    rw [critical_section_iterate K 0 (K + 1) (by omega) (by omega) hK64]
    congr 1 <;> omega
  refine ⟨?_, ?_, ?_, ?_, ?_⟩
  · have := thrBody_invariant (FilterLock.lock 1) (fuel + 1) 0 K hK (fun s => s.level 0 = 0)
      (fun s hs => FilterLock.filter_cycle_one (fuel + 1) s hs) FilterLock.fresh (0, K + 1) rfl
    rwa [hc] at this
  · have := thrBody_invariant (BakeryLock.lock 1) (fuel + 1) 0 K hK (fun _ => True)
      (fun s _ => BakeryLock.bakery_cycle_one fuel s) BakeryLock.fresh (0, K + 1) trivial
    rwa [hc] at this
  · have := thrBody_invariant SpinLock.lock (fuel + 1) 0 K hK (fun s => s.lock_taken = 0)
      (fun s hs => SpinLock.spin_cycle fuel 0 s hs) SpinLock.fresh (0, K + 1) rfl
    rwa [hc] at this
  · have := thrBody_invariant TicketLock.lock (fuel + 1) 0 K hK
      (fun s => s.next_ticket = s.serving_ticket)
      (fun s hs => TicketLock.ticket_cycle fuel 0 s hs) TicketLock.fresh (0, K + 1) rfl
    rwa [hc] at this
  · have := thrBody_invariant (ArrayQLock.lock 1) (fuel + 1) 0 K hK
      (fun s => s.next_avail_id = 0 ∨ s.queue 0 = 1)
      (fun s hs => ArrayQLock.arrayq_cycle_one fuel s hs) ArrayQLock.fresh (0, K + 1)
      (Or.inl rfl)
    rwa [hc] at this

/-- Witness for C1 at `K = 3` with spin bound 1. -/
theorem C1_single_thread_round_trip_witness :
    3 ≤ INT_MAX ∧
    ((∃ s, thrBody (FilterLock.lock 1) (0 + 1) 0 3 (FilterLock.fresh, (0, 3 + 1))
        = some (s, (3, 1))) ∧
    (∃ s, thrBody (BakeryLock.lock 1) (0 + 1) 0 3 (BakeryLock.fresh, (0, 3 + 1))
        = some (s, (3, 1))) ∧
    (∃ s, thrBody SpinLock.lock (0 + 1) 0 3 (SpinLock.fresh, (0, 3 + 1))
        = some (s, (3, 1))) ∧
    (∃ s, thrBody TicketLock.lock (0 + 1) 0 3 (TicketLock.fresh, (0, 3 + 1))
        = some (s, (3, 1))) ∧
    (∃ s, thrBody (ArrayQLock.lock 1) (0 + 1) 0 3 (ArrayQLock.fresh, (0, 3 + 1))
        = some (s, (3, 1)))) :=
  ⟨by decide, C1_single_thread_round_trip 3 0 (by decide)⟩

/-- C7: on a freshly constructed lock of each of the five kinds, `acquire(tid)`
executed alone with `tid < MAX_NUM_THREADS` returns, and each wait loop leaves
on the first evaluation of its condition (spin count 0, also with spin
bound 1). -/
theorem C7_fresh_acquire_no_spin (n tid fuel : Nat) (h : tid < n) :
    (∃ s, FilterLock.acquire n (fuel + 1) FilterLock.fresh tid = some (s, 0)) ∧
    (∃ s, BakeryLock.acquire n (fuel + 1) BakeryLock.fresh tid = some (s, 0)) ∧
    (∃ s, SpinLock.acquire (fuel + 1) SpinLock.fresh tid = some (s, 0)) ∧
    (∃ s, TicketLock.acquire (fuel + 1) TicketLock.fresh tid = some (s, 0)) ∧
    (∃ s, ArrayQLock.acquire n (fuel + 1) ArrayQLock.fresh tid = some (s, 0)) := by
  refine ⟨?_, ?_, ?_, ?_, ?_⟩
  · obtain ⟨s, hs, -, -⟩ := FilterLock.levels_alone n tid fuel (n - 1) 1 FilterLock.fresh
      (le_refl 1) (fun _ _ => rfl)
    exact ⟨s, hs⟩
  · have hf : BakeryLock.found n
        ⟨upd (fun _ => 0) tid 1, upd (fun _ => 0) tid ((0 + 1) % U32), (0 + 1) % U32⟩ tid
        = false := by
      rw [Bool.eq_false_iff]
      intro hs
      rw [BakeryLock.found_iff] at hs
      obtain ⟨k, -, hk, hc, -⟩ := hs
      simp [upd, hk] at hc
    refine ⟨⟨upd (fun _ => 0) tid 1, upd (fun _ => 0) tid ((0 + 1) % U32), (0 + 1) % U32⟩, ?_⟩
    simp only [BakeryLock.acquire, BakeryLock.fresh, BakeryLock.wait, hf]
    rfl
  · exact ⟨⟨1⟩, by simp [SpinLock.acquire, SpinLock.spin, SpinLock.fresh, cas16,
      SpinLock.UNLOCKED, SpinLock.LOCKED]⟩
  · exact ⟨⟨1 % U32, 0⟩, by simp [TicketLock.acquire, TicketLock.wait, TicketLock.fresh,
      atomic_inc]⟩
  · exact ⟨⟨1 % U32, upd (fun _ => 0) 0 1, upd (fun _ => 0) tid 0⟩, by
      simp [ArrayQLock.acquire, ArrayQLock.fresh, atomic_inc, ArrayQLock.wait, upd]⟩

/-- Witness for C7 with `MAX_NUM_THREADS = 3`, `tid = 2` and spin bound 1. -/
theorem C7_fresh_acquire_no_spin_witness :
    2 < 3 ∧
    ((∃ s, FilterLock.acquire 3 (0 + 1) FilterLock.fresh 2 = some (s, 0)) ∧
    (∃ s, BakeryLock.acquire 3 (0 + 1) BakeryLock.fresh 2 = some (s, 0)) ∧
    (∃ s, SpinLock.acquire (0 + 1) SpinLock.fresh 2 = some (s, 0)) ∧
    (∃ s, TicketLock.acquire (0 + 1) TicketLock.fresh 2 = some (s, 0)) ∧
    (∃ s, ArrayQLock.acquire 3 (0 + 1) ArrayQLock.fresh 2 = some (s, 0))) :=
  ⟨by decide, C7_fresh_acquire_no_spin 3 2 0 (by decide)⟩

theorem FilterLock.levels_result (n tid fuel : Nat) :
    ∀ rem i (s s' : FilterLock.State) (w : Nat),
      FilterLock.levels n tid fuel rem i s = some (s', w) →
        (∀ k, k ≠ tid → s'.level k = s.level k) ∧
        (0 < rem → s'.level tid = i + rem - 1) ∧ (rem = 0 → s' = s) := by
  intro rem
  induction rem with
  | zero =>
    intro i s s' w h
    simp only [FilterLock.levels, Option.some.injEq, Prod.mk.injEq] at h
    refine ⟨fun k _ => by rw [h.1], fun h0 => absurd h0 (lt_irrefl 0), fun _ => h.1.symm⟩
  | succ rem ih =>
    intro i s s' w h
    simp only [FilterLock.levels] at h
    cases hw : FilterLock.wait n ⟨upd s.level tid i, upd s.victim i tid⟩ tid i fuel with
    | none => rw [hw] at h; exact absurd h (by simp)
    | some w1 =>
      rw [hw] at h
      cases hl : FilterLock.levels n tid fuel rem (i + 1)
          ⟨upd s.level tid i, upd s.victim i tid⟩ with
      | none => rw [hl] at h; exact absurd h (by simp [addSpins])
      | some r =>
        obtain ⟨s2, w2⟩ := r
        rw [hl] at h
        simp only [addSpins, Option.some.injEq, Prod.mk.injEq] at h
        obtain ⟨h1, h2, h3⟩ := ih (i + 1) _ s2 w2 hl
        rw [← h.1]
        refine ⟨?_, ?_, fun h0 => absurd h0 (Nat.succ_ne_zero rem)⟩
        · intro k hk
          rw [h1 k hk]
          simp only [upd, if_neg hk]
        · intro _
          rcases Nat.eq_zero_or_pos rem with hr | hr
          · rw [h3 hr, hr]
            simp [upd]
          · rw [h2 hr]
            omega

theorem FilterLock.reach_level (n : Nat) (s : FilterLock.State) (held : Nat → Bool)
    (hr : FilterLock.Reach n s held) :
    ∀ k, s.level k = if held k = true then n - 1 else 0 := by
  induction hr with
  | fresh => intro k; rfl
  | acquire s held tid fuel s' w _ _ hacq ih =>
    intro k
    obtain ⟨h1, h2, h3⟩ := FilterLock.levels_result n tid fuel (n - 1) 1 s s' w hacq
    by_cases hk : k = tid
    · subst hk
      simp only [if_true]
      rcases Nat.eq_zero_or_pos (n - 1) with hn | hn
      · rw [h3 hn, ih k, hn]
        simp
      · rw [h2 hn]
        omega
    · rw [h1 k hk, ih k]
      simp only [if_neg hk]
  | release s held tid s' _ _ hrel ih =>
    intro k
    unfold FilterLock.release at hrel
    split at hrel
    · simp only [Option.some.injEq] at hrel
      rw [← hrel]
      by_cases hk : k = tid
      · subst hk
        simp [upd]
      · simp only [upd, if_neg hk]
        exact ih k
    · exact absurd hrel (by simp)

/-- C8, as stated, fails for the configured `MAX_NUM_THREADS = 1`: on a
freshly constructed lock, which thread 0 does not hold, the assertion of
`release(0)` passes. -/
theorem C8_counterexample :
    FilterLock.Reach 1 FilterLock.fresh (fun _ => false) ∧
      ¬ (FilterLock.release 1 FilterLock.fresh 0 = none ↔ (fun _ : Nat => false) 0 = false) := by
  refine ⟨FilterLock.Reach.fresh, ?_⟩
  intro h
  have := h.mpr rfl
  simp [FilterLock.release, FilterLock.fresh] at this

/-- C8, amended: in every state reachable from a fresh `FilterLock` by
completed `acquire`/`release` calls, `release(tid)` fails its assertion exactly
when `level[tid] ≠ MAX_NUM_THREADS - 1`.  For `MAX_NUM_THREADS ≥ 2` that is
exactly when `tid` does not hold the lock.  For `MAX_NUM_THREADS = 1` the
assertion never fails, so an unmatched release is not detected.  Whenever `tid`
holds the lock the assertion passes, and whenever it passes `release` stores 0
to `level[tid]` and changes nothing else. -/
theorem C8_release_assertion (n : Nat) (s : FilterLock.State) (held : Nat → Bool) (tid : Nat)
    (hr : FilterLock.Reach n s held) (ht : tid < n) :
    (FilterLock.release n s tid = none ↔ s.level tid ≠ n - 1) ∧
    (2 ≤ n → (FilterLock.release n s tid = none ↔ held tid = false)) ∧
    (n = 1 → FilterLock.release n s tid ≠ none) ∧
    (held tid = true → FilterLock.release n s tid ≠ none) ∧
    (∀ s', FilterLock.release n s tid = some s' →
      s'.level tid = 0 ∧ (∀ k, k ≠ tid → s'.level k = s.level k) ∧ s'.victim = s.victim) := by
  have hl := FilterLock.reach_level n s held hr tid
  have hrel : FilterLock.release n s tid = none ↔ s.level tid ≠ n - 1 := by
    unfold FilterLock.release
    by_cases h : s.level tid = n - 1
    · rw [if_pos h]
      exact ⟨fun e => absurd e (by simp), fun e => absurd h e⟩
    · rw [if_neg h]
      exact ⟨fun _ => h, fun _ => rfl⟩
  refine ⟨hrel, ?_, ?_, ?_, ?_⟩
  · intro hn
    rw [hrel, hl]
    cases held tid
    · simp; omega
    · simp
  · intro hn
    rw [Ne, hrel, hl, hn]
    simp
  · intro hh
    rw [Ne, hrel, hl, hh]
    simp
  · intro s' hs'
    unfold FilterLock.release at hs'
    split at hs'
    · simp only [Option.some.injEq] at hs'
      rw [← hs']
      refine ⟨by simp [upd], fun k hk => by simp [upd, hk], rfl⟩
    · exact absurd hs' (by simp)

/-- Witness for C8: `MAX_NUM_THREADS = 2`, after `acquire(0)` completed on a
fresh lock, looking at `release(1)`. -/
theorem C8_release_assertion_witness :
    (FilterLock.release 2 ⟨upd (fun _ => 0) 0 1, upd (fun _ => 0) 1 0⟩ 1 = none ↔
      (⟨upd (fun _ => 0) 0 1, upd (fun _ => 0) 1 0⟩ : FilterLock.State).level 1 ≠ 2 - 1) ∧
    (2 ≤ 2 → (FilterLock.release 2 ⟨upd (fun _ => 0) 0 1, upd (fun _ => 0) 1 0⟩ 1 = none ↔
      (fun k => if k = 0 then true else (fun _ : Nat => false) k) 1 = false)) ∧
    (2 = 1 → FilterLock.release 2 ⟨upd (fun _ => 0) 0 1, upd (fun _ => 0) 1 0⟩ 1 ≠ none) ∧
    ((fun k => if k = 0 then true else (fun _ : Nat => false) k) 1 = true →
      FilterLock.release 2 ⟨upd (fun _ => 0) 0 1, upd (fun _ => 0) 1 0⟩ 1 ≠ none) ∧
    (∀ s', FilterLock.release 2 ⟨upd (fun _ => 0) 0 1, upd (fun _ => 0) 1 0⟩ 1 = some s' →
      s'.level 1 = 0 ∧
      (∀ k, k ≠ 1 → s'.level k =
        (⟨upd (fun _ => 0) 0 1, upd (fun _ => 0) 1 0⟩ : FilterLock.State).level k) ∧
      s'.victim = (⟨upd (fun _ => 0) 0 1, upd (fun _ => 0) 1 0⟩ : FilterLock.State).victim) :=
  C8_release_assertion 2 ⟨upd (fun _ => 0) 0 1, upd (fun _ => 0) 1 0⟩
    (fun k => if k = 0 then true else (fun _ : Nat => false) k) 1
    (FilterLock.Reach.acquire FilterLock.fresh (fun _ => false) 0 1 _ 0
      FilterLock.Reach.fresh (by decide) rfl)
    (by decide)

/-! ## Theorems, part II -/

theorem run_reachable {σ : Type} (init : σ) (step : σ → Nat → σ) (T : Nat) :
    ∀ (sched : List Nat) (s : σ), Reachable init step T s → (∀ t ∈ sched, t < T) →
      Reachable init step T (run step sched s) := by
  intro sched
  induction sched with
  | nil => intro s hs _; exact hs
  | cons t rest ih =>
    intro s hs ht
    exact ih (step s t) (Reachable.step s t hs (ht t (List.mem_cons_self t rest)))
      (fun u hu => ht u (List.mem_cons_of_mem t hu))

/-- C2 fails on the code: with `MAX_NUM_THREADS = 2`, from a fresh lock the
schedule `badSchedule` leads to a state in which threads 0 and 1 are both
between the return of `acquire` and the start of `release`, both with
label 1. -/
theorem C2_bakery_both_in_critical_section :
    ∃ s, Reachable BakeryLock.init (BakeryLock.step 2) 2 s ∧
      s.pc 0 = BakeryLock.PC.crit ∧ s.pc 1 = BakeryLock.PC.crit ∧
      s.mem.label 0 = 1 ∧ s.mem.label 1 = 1 := by
  refine ⟨run (BakeryLock.step 2) BakeryLock.badSchedule BakeryLock.init, ?_, ?_, ?_, ?_, ?_⟩
  · apply run_reachable _ _ _ _ _ Reachable.init
    decide
  · decide
  · decide
  · decide
  · decide

theorem SpinLock.spin_invariant (T : Nat) (s : SpinLock.Sys)
    (hr : Reachable SpinLock.init SpinLock.step T s) :
    (∀ i j, s.pc i = SpinLock.PC.crit → s.pc j = SpinLock.PC.crit → i = j) ∧
      (s.mem.lock_taken = SpinLock.LOCKED ↔ ∃ i, s.pc i = SpinLock.PC.crit) ∧
      (s.mem.lock_taken = SpinLock.LOCKED ∨ s.mem.lock_taken = SpinLock.UNLOCKED) := by
  induction hr with
  | init =>
    refine ⟨?_, ?_, Or.inr rfl⟩
    · intro i j hi
      simp [SpinLock.init] at hi
    · simp [SpinLock.init, SpinLock.fresh, SpinLock.LOCKED]
  | step s t _ _ ih =>
    obtain ⟨hmx, hlk, hv⟩ := ih
    cases hpc : s.pc t with
    | acq =>
      rcases hv with hv | hv
      · -- the lock is taken: the cas fails
        have hst : SpinLock.step s t = ⟨⟨SpinLock.LOCKED⟩, s.pc⟩ := by
          simp [SpinLock.step, hpc, cas16, hv, SpinLock.LOCKED, SpinLock.UNLOCKED]
        rw [hst]
        refine ⟨hmx, ?_, Or.inl rfl⟩
        simp only [true_iff]
        exact hlk.mp hv
      · -- the lock is free: nobody is in the critical section
        have hnone : ∀ i, s.pc i ≠ SpinLock.PC.crit := by
          intro i hi
          have := hlk.mpr ⟨i, hi⟩
          rw [hv] at this
          exact absurd this (by decide)
        have hst : SpinLock.step s t = ⟨⟨SpinLock.LOCKED⟩, upd s.pc t SpinLock.PC.crit⟩ := by
          simp [SpinLock.step, hpc, cas16, hv]
        rw [hst]
        refine ⟨?_, ?_, Or.inl rfl⟩
        · intro i j hi hj
          simp only [upd] at hi hj
          by_cases hit : i = t
          · by_cases hjt : j = t
            · rw [hit, hjt]
            · rw [if_neg hjt] at hj
              exact absurd hj (hnone j)
          · rw [if_neg hit] at hi
            exact absurd hi (hnone i)
        · simp only [true_iff]
          exact ⟨t, by simp [upd]⟩
    | crit =>
      have hl : s.mem.lock_taken = SpinLock.LOCKED := hlk.mpr ⟨t, hpc⟩
      have hst : SpinLock.step s t = ⟨⟨SpinLock.UNLOCKED⟩, upd s.pc t SpinLock.PC.acq⟩ := by
        simp [SpinLock.step, hpc, cas16, hl]
      rw [hst]
      refine ⟨?_, ?_, Or.inr rfl⟩
      · intro i j hi hj
        simp only [upd] at hi hj
        by_cases hit : i = t
        · rw [if_pos hit] at hi
          exact absurd hi (by simp)
        · by_cases hjt : j = t
          · rw [if_pos hjt] at hj
            exact absurd hj (by simp)
          · rw [if_neg hit] at hi
            rw [if_neg hjt] at hj
            exact hmx i j hi hj
      · constructor
        · intro h
          simp [SpinLock.LOCKED, SpinLock.UNLOCKED] at h
        · rintro ⟨i, hi⟩
          simp only [upd] at hi
          by_cases hit : i = t
          · rw [if_pos hit] at hi
            exact absurd hi (by simp)
          · rw [if_neg hit] at hi
            exact absurd (hmx i t hi hpc) hit

/-- C6: with `cas16` one atomic step, in every state reachable from a fresh
`SpinLock` by any number `T` of threads looping `acquire; critical section;
release`, at most one thread is between the return of `acquire` and the start
of `release`, and `lock_taken = LOCKED` exactly when there is such a thread. -/
theorem C6_spinlock_mutual_exclusion (T : Nat) (s : SpinLock.Sys)
    (hr : Reachable SpinLock.init SpinLock.step T s) :
    (∀ i j, s.pc i = SpinLock.PC.crit → s.pc j = SpinLock.PC.crit → i = j) ∧
      (s.mem.lock_taken = SpinLock.LOCKED ↔ ∃ i, s.pc i = SpinLock.PC.crit) :=
  ⟨(SpinLock.spin_invariant T s hr).1, (SpinLock.spin_invariant T s hr).2.1⟩

/-- Witness for C6: three threads, after thread 1 won the `cas16` and thread 2
failed it. -/
theorem C6_spinlock_mutual_exclusion_witness :
    (∀ i j, (run SpinLock.step [1, 2] SpinLock.init).pc i = SpinLock.PC.crit →
        (run SpinLock.step [1, 2] SpinLock.init).pc j = SpinLock.PC.crit → i = j) ∧
      ((run SpinLock.step [1, 2] SpinLock.init).mem.lock_taken = SpinLock.LOCKED ↔
        ∃ i, (run SpinLock.step [1, 2] SpinLock.init).pc i = SpinLock.PC.crit) :=
  C6_spinlock_mutual_exclusion 3 (run SpinLock.step [1, 2] SpinLock.init)
    (Reachable.step _ 2 (Reachable.step _ 1 Reachable.init (by decide)) (by decide))

theorem ArrayQLock.quiet_cycle (k : Nat) (s : ArrayQLock.Sys) (hk : 1 ≤ k) (hk' : k + 1 < U32)
    (h : ArrayQLock.Quiet k s) :
    ArrayQLock.Quiet (k + 1) (run (ArrayQLock.step 2) [0, 0, 0, 0, 0, 0] s) := by
  obtain ⟨h1, h2, h3, h4, h5⟩ := h
  have hk0 : k ≠ 0 := by omega
  have hlt : (k + 1) % U32 = k + 1 := Nat.mod_eq_of_lt hk'
  rcases Nat.mod_two_eq_zero_or_one k with hm | hm
  · have hm' : (k + 1) % 2 = 1 := by omega
    simp [hm] at h2 h3
    simp [ArrayQLock.Quiet, run, ArrayQLock.step, atomic_inc, upd, h1, h2, h3, h4, h5, hk0, hm,
      hm', hlt]
  · have hm' : (k + 1) % 2 = 0 := by omega
    simp [hm] at h2 h3
    simp [ArrayQLock.Quiet, run, ArrayQLock.step, atomic_inc, upd, h1, h2, h3, h4, h5, hk0, hm,
      hm', hlt]

theorem ArrayQLock.quiet_reachable (k : Nat) (hk' : k + 1 < U32) :
    ∃ s, Reachable ArrayQLock.init (ArrayQLock.step 2) 2 s ∧ ArrayQLock.Quiet (k + 1) s := by
  induction k with
  | zero =>
    refine ⟨run (ArrayQLock.step 2) [0, 0, 0, 0, 0, 0, 0] ArrayQLock.init, ?_, ?_⟩
    · apply run_reachable _ _ _ _ _ Reachable.init
      decide
    · simp [ArrayQLock.Quiet, run, ArrayQLock.step, atomic_inc, upd, ArrayQLock.init,
        ArrayQLock.fresh, U32]
  | succ k ih =>
    obtain ⟨s, hs, hq⟩ := ih (by omega)
    refine ⟨run (ArrayQLock.step 2) [0, 0, 0, 0, 0, 0] s, ?_, ?_⟩
    · apply run_reachable _ _ _ _ _ hs
      decide
    · exact ArrayQLock.quiet_cycle (k + 1) s (by omega) hk' hq

/-- C5 fails on the code: with `MAX_NUM_THREADS = 2` and threads 0 and 1, let
thread 0 run `2 ^ 32 - 1` complete acquire/release cycles alone and then
acquire once more, drawing `2 ^ 32 - 1` and wrapping `next_avail_id` to 0; when
thread 1 now calls `acquire` it draws 0, stores 1 to `queue[0]` and returns
while thread 0 is still in its critical section. -/
theorem C5_arrayq_both_in_critical_section :
    ∃ s, Reachable ArrayQLock.init (ArrayQLock.step 2) 2 s ∧
      s.pc 0 = ArrayQLock.PC.crit ∧ s.pc 1 = ArrayQLock.PC.crit := by
  obtain ⟨s, hs, h1, h2, h3, h4, h5⟩ := ArrayQLock.quiet_reachable (U32 - 2) (by decide)
  have e : U32 - 2 + 1 = 4294967295 := by decide
  rw [e] at h1 h2 h3
  simp at h2 h3
  refine ⟨run (ArrayQLock.step 2) [0, 0, 0, 1, 1, 1, 1] s, ?_, ?_, ?_⟩
  · apply run_reachable _ _ _ _ _ hs
    decide
  · simp [run, ArrayQLock.step, atomic_inc, upd, h1, h2, h3, h4, h5, U32]
  · simp [run, ArrayQLock.step, atomic_inc, upd, h1, h2, h3, h4, h5, U32]

theorem TicketLock.Inv.bounds {T : Nat} {s : TicketLock.Sys} (h : TicketLock.Inv T s)
    (i g : Nat) (hi : (s.pc i).idx? = some g) : s.released ≤ g ∧ g < s.issued := by
  cases hpc : s.pc i with
  | idle => rw [hpc] at hi; simp [TicketLock.PC.idx?] at hi
  | wait t g' =>
    rw [hpc] at hi
    simp only [TicketLock.PC.idx?, Option.some.injEq] at hi
    subst hi
    exact (h.wait i t g' hpc).2
  | crit t g' =>
    rw [hpc] at hi
    simp only [TicketLock.PC.idx?, Option.some.injEq] at hi
    subst hi
    obtain ⟨-, h2, h3, -⟩ := h.crit i t g' hpc
    omega
  | rel t g' v =>
    rw [hpc] at hi
    simp only [TicketLock.PC.idx?, Option.some.injEq] at hi
    subst hi
    obtain ⟨-, h2, h3, -⟩ := h.rel i t g' v hpc
    omega

theorem TicketLock.Inv.window {T : Nat} {s : TicketLock.Sys} (h : TicketLock.Inv T s) :
    s.issued ≤ s.released + T := by
  by_contra hc
  have hex : ∀ k : Fin (T + 1), ∃ i : Fin T, (s.pc i).idx? = some (s.released + k) := by
    intro k
    have hk := k.isLt
    obtain ⟨i, hi⟩ := h.surj (s.released + k) (by omega) (by omega)
    have hlt : i < T := by
      by_contra hn
      rw [h.out i (by omega)] at hi
      simp [TicketLock.PC.idx?] at hi
    exact ⟨⟨i, hlt⟩, hi⟩
  choose f hf using hex
  have finj : Function.Injective f := by
    intro a b hab
    have ha := hf a
    have hb := hf b
    rw [hab] at ha
    rw [ha] at hb
    simp only [Option.some.injEq] at hb
    exact Fin.ext (by omega)
  have := Fintype.card_le_of_injective f finj
  simp at this

theorem TicketLock.ticket_inv_init (T : Nat) : TicketLock.Inv T TicketLock.init where
  next := rfl
  serv := rfl
  le := Nat.le_refl _
  out := fun _ _ => rfl
  wait := fun i t g h => by simp [TicketLock.init] at h
  crit := fun i t g h => by simp [TicketLock.init] at h
  rel := fun i t g v h => by simp [TicketLock.init] at h
  inj := fun i j g h => by simp [TicketLock.init, TicketLock.PC.idx?] at h
  surj := fun g h1 h2 => by simp [TicketLock.init] at h2
  quiet := fun _ _ => rfl

theorem upd_same {α : Type} (f : Nat → α) (a : Nat) (v : α) : upd f a v a = v := by
  simp [upd]

theorem upd_other {α : Type} (f : Nat → α) (a : Nat) (v : α) (i : Nat) (h : i ≠ a) :
    upd f a v i = f i := by
  simp [upd, h]

theorem TicketLock.ticket_step_idle {T : Nat} {s : TicketLock.Sys} (h : TicketLock.Inv T s)
    (a : Nat) (ha : a < T) (hpc : s.pc a = TicketLock.PC.idle) :
    TicketLock.Inv T (TicketLock.step s a) := by
  have hst : TicketLock.step s a =
      ⟨⟨(s.mem.next_ticket + 1) % U32, s.mem.serving_ticket⟩,
        upd s.pc a (TicketLock.PC.wait s.mem.next_ticket s.issued),
        s.issued + 1, s.entered, s.released⟩ := by
    simp [TicketLock.step, hpc, atomic_inc]
  rw [hst]
  have hpc' : ∀ i, i ≠ a → upd s.pc a (TicketLock.PC.wait s.mem.next_ticket s.issued) i
      = s.pc i := fun i hi => upd_other _ _ _ _ hi
  refine ⟨?_, h.serv, Nat.le_succ_of_le h.le, ?_, ?_, ?_, ?_, ?_, ?_, ?_⟩
  · show (s.mem.next_ticket + 1) % U32 = (s.issued + 1) % U32
    rw [h.next, Nat.mod_add_mod]
  · intro i hi
    show upd s.pc a _ i = _
    rw [hpc' i (by omega)]
    exact h.out i hi
  · intro i t g hi
    change upd s.pc a _ i = _ at hi
    show t = g % U32 ∧ s.released ≤ g ∧ g < s.issued + 1
    by_cases hia : i = a
    · rw [hia, upd_same] at hi
      simp only [TicketLock.PC.wait.injEq] at hi
      obtain ⟨h1, h2⟩ := hi
      subst h1 h2
      exact ⟨h.next, h.le, Nat.lt_succ_self _⟩
    · rw [hpc' i hia] at hi
      obtain ⟨h1, h2, h3⟩ := h.wait i t g hi
      exact ⟨h1, h2, by omega⟩
  · intro i t g hi
    change upd s.pc a _ i = _ at hi
    show t = g % U32 ∧ g = s.released ∧ g < s.issued + 1 ∧ s.entered = g + 1
    by_cases hia : i = a
    · rw [hia, upd_same] at hi
      exact absurd hi (by simp)
    · rw [hpc' i hia] at hi
      obtain ⟨h1, h2, h3, h4⟩ := h.crit i t g hi
      exact ⟨h1, h2, by omega, h4⟩
  · intro i t g v hi
    change upd s.pc a _ i = _ at hi
    show t = g % U32 ∧ g = s.released ∧ g < s.issued + 1 ∧ s.entered = g + 1 ∧
      v = s.mem.serving_ticket
    by_cases hia : i = a
    · rw [hia, upd_same] at hi
      exact absurd hi (by simp)
    · rw [hpc' i hia] at hi
      obtain ⟨h1, h2, h3, h4, h5⟩ := h.rel i t g v hi
      exact ⟨h1, h2, by omega, h4, h5⟩
  · intro i j g hi hj
    change (upd s.pc a _ i).idx? = _ at hi
    change (upd s.pc a _ j).idx? = _ at hj
    by_cases hia : i = a
    · by_cases hja : j = a
      · rw [hia, hja]
      · rw [hia, upd_same] at hi
        rw [hpc' j hja] at hj
        simp only [TicketLock.PC.idx?, Option.some.injEq] at hi
        have := (h.bounds j g hj).2
        omega
    · by_cases hja : j = a
      · rw [hja, upd_same] at hj
        rw [hpc' i hia] at hi
        simp only [TicketLock.PC.idx?, Option.some.injEq] at hj
        have := (h.bounds i g hi).2
        omega
      · rw [hpc' i hia] at hi
        rw [hpc' j hja] at hj
        exact h.inj i j g hi hj
  · intro g h1 h2
    change s.released ≤ g at h1
    change g < s.issued + 1 at h2
    by_cases hg : g = s.issued
    · refine ⟨a, ?_⟩
      show (upd s.pc a _ a).idx? = _
      rw [upd_same, hg]
      rfl
    · obtain ⟨i, hi⟩ := h.surj g h1 (by omega)
      refine ⟨i, ?_⟩
      show (upd s.pc a _ i).idx? = _
      have hia : i ≠ a := by
        intro e
        rw [e, hpc] at hi
        simp [TicketLock.PC.idx?] at hi
      rw [hpc' i hia]
      exact hi
  · intro hc hr
    show s.entered = s.released
    apply h.quiet
    · intro i t g hi
      have hia : i ≠ a := by
        intro e
        rw [e, hpc] at hi
        exact absurd hi (by simp)
      exact hc i t g (by show upd s.pc a _ i = _; rw [hpc' i hia]; exact hi)
    · intro i t g v hi
      have hia : i ≠ a := by
        intro e
        rw [e, hpc] at hi
        exact absurd hi (by simp)
      exact hr i t g v (by show upd s.pc a _ i = _; rw [hpc' i hia]; exact hi)

theorem TicketLock.Inv.no_holder_of_wait {T : Nat} {s : TicketLock.Sys}
    (h : TicketLock.Inv T s) (a t0 : Nat) (hpc : s.pc a = TicketLock.PC.wait t0 s.released) :
    (∀ i t g, s.pc i ≠ TicketLock.PC.crit t g) ∧
      (∀ i t g v, s.pc i ≠ TicketLock.PC.rel t g v) := by
  have ha : (s.pc a).idx? = some s.released := by rw [hpc]; rfl
  constructor
  · intro i t g hi
    have hg := (h.crit i t g hi).2.1
    have hi' : (s.pc i).idx? = some s.released := by rw [hi, hg]; rfl
    have := h.inj i a _ hi' ha
    rw [this, hpc] at hi
    exact absurd hi (by simp)
  · intro i t g v hi
    have hg := (h.rel i t g v hi).2.1
    have hi' : (s.pc i).idx? = some s.released := by rw [hi, hg]; rfl
    have := h.inj i a _ hi' ha
    rw [this, hpc] at hi
    exact absurd hi (by simp)

theorem TicketLock.ticket_step_wait {T : Nat} (hT : T < U32) {s : TicketLock.Sys}
    (h : TicketLock.Inv T s) (a t0 g0 : Nat) (hpc : s.pc a = TicketLock.PC.wait t0 g0) :
    TicketLock.Inv T (TicketLock.step s a) := by
  by_cases hne : t0 ≠ s.mem.serving_ticket
  · have hst : TicketLock.step s a = s := by
      simp only [TicketLock.step, hpc]
      rw [if_pos hne]
    rw [hst]
    exact h
  · have hst : TicketLock.step s a =
        ⟨s.mem, upd s.pc a (TicketLock.PC.crit t0 g0), s.issued, s.entered + 1, s.released⟩ := by
      simp only [TicketLock.step, hpc]
      rw [if_neg hne]
    have heq : t0 = s.mem.serving_ticket := not_not.mp hne
    obtain ⟨w1, w2, w3⟩ := h.wait a t0 g0 hpc
    have hg0 : g0 = s.released := by
      have hw := h.window
      have hs := h.serv
      rw [← heq, w1] at hs
      simp only [U32] at hs hT
      omega
    subst hg0
    obtain ⟨nc, nr⟩ := h.no_holder_of_wait a t0 hpc
    have hent : s.entered = s.released := h.quiet nc nr
    rw [hst]
    have hpc' : ∀ i, i ≠ a → upd s.pc a (TicketLock.PC.crit t0 s.released) i = s.pc i :=
      fun i hi => upd_other _ _ _ _ hi
    refine ⟨h.next, h.serv, h.le, ?_, ?_, ?_, ?_, ?_, ?_, ?_⟩
    · intro i hi
      show upd s.pc a _ i = _
      have hia : i ≠ a := by
        intro e
        rw [h.out a (by omega)] at hpc
        exact absurd hpc (by simp)
      rw [hpc' i hia]
      exact h.out i hi
    · intro i t g hi
      change upd s.pc a _ i = _ at hi
      by_cases hia : i = a
      · rw [hia, upd_same] at hi
        exact absurd hi (by simp)
      · rw [hpc' i hia] at hi
        exact h.wait i t g hi
    · intro i t g hi
      change upd s.pc a _ i = _ at hi
      show t = g % U32 ∧ g = s.released ∧ g < s.issued ∧ s.entered + 1 = g + 1
      by_cases hia : i = a
      · rw [hia, upd_same] at hi
        simp only [TicketLock.PC.crit.injEq] at hi
        obtain ⟨e1, e2⟩ := hi
        subst e1 e2
        exact ⟨w1, rfl, w3, by omega⟩
      · rw [hpc' i hia] at hi
        exact absurd hi (nc i t g)
    · intro i t g v hi
      change upd s.pc a _ i = _ at hi
      by_cases hia : i = a
      · rw [hia, upd_same] at hi
        exact absurd hi (by simp)
      · rw [hpc' i hia] at hi
        exact absurd hi (nr i t g v)
    · intro i j g hi hj
      change (upd s.pc a _ i).idx? = _ at hi
      change (upd s.pc a _ j).idx? = _ at hj
      have key : ∀ k, (upd s.pc a (TicketLock.PC.crit t0 s.released) k).idx? = (s.pc k).idx? := by
        intro k
        by_cases hk : k = a
        · rw [hk, upd_same, hpc]
          rfl
        · rw [hpc' k hk]
      rw [key] at hi hj
      exact h.inj i j g hi hj
    · intro g h1 h2
      obtain ⟨i, hi⟩ := h.surj g h1 h2
      refine ⟨i, ?_⟩
      show (upd s.pc a _ i).idx? = _
      by_cases hk : i = a
      · rw [hk, upd_same]
        rw [hk, hpc] at hi
        exact hi
      · rw [hpc' i hk]
        exact hi
    · intro hc _
      exact absurd (upd_same s.pc a _) (hc a t0 s.released)

theorem TicketLock.ticket_step_crit {T : Nat} {s : TicketLock.Sys}
    (h : TicketLock.Inv T s) (a t0 g0 : Nat) (hpc : s.pc a = TicketLock.PC.crit t0 g0) :
    TicketLock.Inv T (TicketLock.step s a) := by
  have hst : TicketLock.step s a =
      ⟨s.mem, upd s.pc a (TicketLock.PC.rel t0 g0 s.mem.serving_ticket), s.issued, s.entered,
        s.released⟩ := by
    simp only [TicketLock.step, hpc]
  obtain ⟨c1, c2, c3, c4⟩ := h.crit a t0 g0 hpc
  rw [hst]
  have hpc' : ∀ i, i ≠ a →
      upd s.pc a (TicketLock.PC.rel t0 g0 s.mem.serving_ticket) i = s.pc i :=
    fun i hi => upd_other _ _ _ _ hi
  refine ⟨h.next, h.serv, h.le, ?_, ?_, ?_, ?_, ?_, ?_, ?_⟩
  · intro i hi
    show upd s.pc a _ i = _
    have hia : i ≠ a := by
      intro e
      rw [h.out a (by omega)] at hpc
      exact absurd hpc (by simp)
    rw [hpc' i hia]
    exact h.out i hi
  · intro i t g hi
    change upd s.pc a _ i = _ at hi
    by_cases hia : i = a
    · rw [hia, upd_same] at hi
      exact absurd hi (by simp)
    · rw [hpc' i hia] at hi
      exact h.wait i t g hi
  · intro i t g hi
    change upd s.pc a _ i = _ at hi
    by_cases hia : i = a
    · rw [hia, upd_same] at hi
      exact absurd hi (by simp)
    · rw [hpc' i hia] at hi
      exact h.crit i t g hi
  · intro i t g v hi
    change upd s.pc a _ i = _ at hi
    show t = g % U32 ∧ g = s.released ∧ g < s.issued ∧ s.entered = g + 1 ∧
      v = s.mem.serving_ticket
    by_cases hia : i = a
    · rw [hia, upd_same] at hi
      simp only [TicketLock.PC.rel.injEq] at hi
      obtain ⟨e1, e2, e3⟩ := hi
      subst e1 e2 e3
      exact ⟨c1, c2, c3, c4, rfl⟩
    · rw [hpc' i hia] at hi
      exact h.rel i t g v hi
  · intro i j g hi hj
    change (upd s.pc a _ i).idx? = _ at hi
    change (upd s.pc a _ j).idx? = _ at hj
    have key : ∀ k, (upd s.pc a (TicketLock.PC.rel t0 g0 s.mem.serving_ticket) k).idx?
        = (s.pc k).idx? := by
      intro k
      by_cases hk : k = a
      · rw [hk, upd_same, hpc]
        rfl
      · rw [hpc' k hk]
    rw [key] at hi hj
    exact h.inj i j g hi hj
  · intro g h1 h2
    obtain ⟨i, hi⟩ := h.surj g h1 h2
    refine ⟨i, ?_⟩
    show (upd s.pc a _ i).idx? = _
    by_cases hk : i = a
    · rw [hk, upd_same]
      rw [hk, hpc] at hi
      exact hi
    · rw [hpc' i hk]
      exact hi
  · intro _ hr
    exact absurd (upd_same s.pc a _) (hr a t0 g0 s.mem.serving_ticket)

theorem TicketLock.ticket_step_rel {T : Nat} {s : TicketLock.Sys}
    (h : TicketLock.Inv T s) (a t0 g0 v0 : Nat) (hpc : s.pc a = TicketLock.PC.rel t0 g0 v0) :
    TicketLock.Inv T (TicketLock.step s a) := by
  have hst : TicketLock.step s a =
      ⟨⟨s.mem.next_ticket, (v0 + 1) % U32⟩, upd s.pc a TicketLock.PC.idle, s.issued, s.entered,
        s.released + 1⟩ := by
    simp only [TicketLock.step, hpc]
  obtain ⟨r1, r2, r3, r4, r5⟩ := h.rel a t0 g0 v0 hpc
  have hidx : (s.pc a).idx? = some g0 := by rw [hpc]; rfl
  have hother : ∀ i g, i ≠ a → (s.pc i).idx? = some g → g ≠ g0 := by
    intro i g hia hi e
    rw [e] at hi
    exact hia (h.inj i a g0 hi hidx)
  rw [hst]
  have hpc' : ∀ i, i ≠ a → upd s.pc a TicketLock.PC.idle i = s.pc i :=
    fun i hi => upd_other _ _ _ _ hi
  refine ⟨h.next, ?_, ?_, ?_, ?_, ?_, ?_, ?_, ?_, ?_⟩
  · show (v0 + 1) % U32 = (s.released + 1) % U32
    rw [r5, h.serv, Nat.mod_add_mod]
  · show s.released + 1 ≤ s.issued
    omega
  · intro i hi
    show upd s.pc a _ i = _
    by_cases hia : i = a
    · rw [hia, upd_same]
    · rw [hpc' i hia]
      exact h.out i hi
  · intro i t g hi
    change upd s.pc a _ i = _ at hi
    show t = g % U32 ∧ s.released + 1 ≤ g ∧ g < s.issued
    by_cases hia : i = a
    · rw [hia, upd_same] at hi
      exact absurd hi (by simp)
    · rw [hpc' i hia] at hi
      obtain ⟨h1, h2, h3⟩ := h.wait i t g hi
      have := hother i g hia (by rw [hi]; rfl)
      exact ⟨h1, by omega, h3⟩
  · intro i t g hi
    change upd s.pc a _ i = _ at hi
    by_cases hia : i = a
    · rw [hia, upd_same] at hi
      exact absurd hi (by simp)
    · rw [hpc' i hia] at hi
      have := hother i g hia (by rw [hi]; rfl)
      exact absurd ((h.crit i t g hi).2.1.trans r2.symm) this
  · intro i t g v hi
    change upd s.pc a _ i = _ at hi
    by_cases hia : i = a
    · rw [hia, upd_same] at hi
      exact absurd hi (by simp)
    · rw [hpc' i hia] at hi
      have := hother i g hia (by rw [hi]; rfl)
      exact absurd ((h.rel i t g v hi).2.1.trans r2.symm) this
  · intro i j g hi hj
    change (upd s.pc a _ i).idx? = _ at hi
    change (upd s.pc a _ j).idx? = _ at hj
    by_cases hia : i = a
    · rw [hia, upd_same] at hi
      simp [TicketLock.PC.idx?] at hi
    · by_cases hja : j = a
      · rw [hja, upd_same] at hj
        simp [TicketLock.PC.idx?] at hj
      · rw [hpc' i hia] at hi
        rw [hpc' j hja] at hj
        exact h.inj i j g hi hj
  · intro g h1 h2
    change s.released + 1 ≤ g at h1
    change g < s.issued at h2
    obtain ⟨i, hi⟩ := h.surj g (by omega) h2
    refine ⟨i, ?_⟩
    show (upd s.pc a _ i).idx? = _
    have hia : i ≠ a := by
      intro e
      rw [e, hidx] at hi
      simp only [Option.some.injEq] at hi
      omega
    rw [hpc' i hia]
    exact hi
  · intro _ _
    show s.entered = s.released + 1
    omega

theorem TicketLock.ticket_inv_of_reachable (T : Nat) (hT : T < U32) (s : TicketLock.Sys)
    (hr : Reachable TicketLock.init TicketLock.step T s) : TicketLock.Inv T s := by
  induction hr with
  | init => exact TicketLock.ticket_inv_init T
  | step s a _ ha ih =>
    cases hpc : s.pc a with
    | idle => exact TicketLock.ticket_step_idle ih a ha hpc
    | wait t g => exact TicketLock.ticket_step_wait hT ih a t g hpc
    | crit t g => exact TicketLock.ticket_step_crit ih a t g hpc
    | rel t g v => exact TicketLock.ticket_step_rel ih a t g v hpc

/-- C4: with fewer than `2 ^ 32` threads, in every reachable state of the
`TicketLock` system a thread that has returned from `acquire` with ticket
`my_ticket`, drawn by the `idx`-th `atomic_inc` (counting from 0), sees
`serving_ticket = my_ticket = idx mod 2 ^ 32`; its entry is entry number `idx`
(`entered = idx + 1`), exactly `idx` releases have completed, and every thread
that holds a ticket holds a later-issued one unless it is this thread. -/
theorem C4_ticket_order (T : Nat) (hT : T < U32) (s : TicketLock.Sys)
    (hr : Reachable TicketLock.init TicketLock.step T s)
    (i my_ticket idx : Nat) (hc : s.pc i = TicketLock.PC.crit my_ticket idx) :
    s.mem.serving_ticket = my_ticket ∧ my_ticket = idx % U32 ∧ s.entered = idx + 1 ∧
      s.released = idx ∧
      ∀ j g, (s.pc j).idx? = some g → idx ≤ g ∧ (g = idx → j = i) := by
  have h := TicketLock.ticket_inv_of_reachable T hT s hr
  obtain ⟨c1, c2, c3, c4⟩ := h.crit i my_ticket idx hc
  refine ⟨?_, c1, c4, c2.symm, ?_⟩
  · rw [h.serv, c1, c2]
  · intro j g hj
    have hb := (h.bounds j g hj).1
    refine ⟨by omega, fun e => ?_⟩
    rw [e] at hj
    exact h.inj j i idx hj (by rw [hc]; rfl)

/-- Witness for C4: two threads; thread 1 draws ticket 0 and enters, thread 0
draws ticket 1 and spins. -/
theorem C4_ticket_order_witness :
    (run TicketLock.step [1, 0, 1, 0] TicketLock.init).mem.serving_ticket = 0 ∧
      0 = 0 % U32 ∧ (run TicketLock.step [1, 0, 1, 0] TicketLock.init).entered = 0 + 1 ∧
      (run TicketLock.step [1, 0, 1, 0] TicketLock.init).released = 0 ∧
      ∀ j g, ((run TicketLock.step [1, 0, 1, 0] TicketLock.init).pc j).idx? = some g →
        0 ≤ g ∧ (g = 0 → j = 1) :=
  C4_ticket_order 2 (by decide) (run TicketLock.step [1, 0, 1, 0] TicketLock.init)
    (run_reachable _ _ _ [1, 0, 1, 0] _ Reachable.init (by decide)) 1 0 0 (by decide)

theorem FilterLock.levelOk_enter_first (n : Nat) :
    FilterLock.levelOk n (FilterLock.enter n 1) 0 := by
  unfold FilterLock.enter
  split
  · exact ⟨le_refl 1, by assumption, rfl⟩
  · show 0 = n - 1
    omega

theorem FilterLock.levelOk_enter_next (n i : Nat) (h1 : 1 ≤ i) (h2 : i < n) :
    FilterLock.levelOk n (FilterLock.enter n (i + 1)) i := by
  unfold FilterLock.enter
  split
  · exact ⟨by omega, by assumption, rfl⟩
  · show i = n - 1
    omega

theorem FilterLock.enter_ne_scan (n i j k : Nat) :
    FilterLock.enter n i ≠ FilterLock.PC.scan j k := by
  unfold FilterLock.enter
  split <;> simp

theorem FilterLock.enter_ne_checkVictim (n i j : Nat) :
    FilterLock.enter n i ≠ FilterLock.PC.checkVictim j := by
  unfold FilterLock.enter
  split <;> simp

theorem FilterLock.blockedAt_frame (s s' : FilterLock.Sys) (j c : Nat)
    (hpc : s'.pc c = s.pc c) (hv : s'.mem.victim j = s.mem.victim j)
    (h : FilterLock.blockedAt s j c) : FilterLock.blockedAt s' j c := by
  unfold FilterLock.blockedAt at *
  rw [hpc, hv]
  exact h

/-- A step of thread `a` that only moves its program counter keeps the
invariant, given what the new program counter needs. -/
theorem FilterLock.inv_pc_only {n : Nat} {s : FilterLock.Sys} (h : FilterLock.Inv n s)
    (a : Nat) (ha : a < n) (p' : FilterLock.PC)
    (c1 : FilterLock.levelOk n p' (s.mem.level a))
    (c2 : ∀ j k, p' = FilterLock.PC.scan j k → s.mem.victim j = a →
      ∀ u, u < k → u ≠ a → (s.mem.level u < j ∨ s.pc u = FilterLock.PC.setVictim j))
    (c3 : ∀ j, s.pc a ≠ FilterLock.PC.setVictim j)
    (c4 : ∀ j, 1 ≤ j → (∃ a1 b1, a1 ≠ b1 ∧ j ≤ s.mem.level a1 ∧ j ≤ s.mem.level b1) →
      s.mem.victim j = a →
      (s.pc a = FilterLock.PC.checkVictim j ∨ ∃ k, s.pc a = FilterLock.PC.scan j k) →
      (p' = FilterLock.PC.checkVictim j ∨ ∃ k, p' = FilterLock.PC.scan j k) ∨
        ∃ c, c ≠ a ∧ FilterLock.blockedAt s j c) :
    FilterLock.Inv n ⟨s.mem, upd s.pc a p'⟩ := by
  have hpc' : ∀ u, u ≠ a → upd s.pc a p' u = s.pc u := fun u hu => upd_other _ _ _ _ hu
  refine ⟨?_, ?_, ?_, ?_⟩
  · intro t ht
    show upd s.pc a p' t = _
    rw [hpc' t (by omega)]
    exact h.out t ht
  · intro t
    show FilterLock.levelOk n (upd s.pc a p' t) (s.mem.level t)
    by_cases hta : t = a
    · rw [hta, upd_same]
      exact c1
    · rw [hpc' t hta]
      exact h.ok t
  · intro v j k hv hvic u hu huv
    change upd s.pc a p' v = _ at hv
    change s.mem.victim j = v at hvic
    show s.mem.level u < j ∨ upd s.pc a p' u = _
    by_cases hva : v = a
    · subst hva
      rw [upd_same] at hv
      rw [hpc' u huv]
      exact c2 j k hv hvic u hu huv
    · rw [hpc' v hva] at hv
      rcases h.scanned v j k hv hvic u hu huv with hl | hp
      · exact Or.inl hl
      · by_cases hua : u = a
        · rw [hua] at hp
          exact absurd hp (c3 j)
        · rw [hpc' u hua]
          exact Or.inr hp
  · intro j a1 b1 hj hab hla hlb
    change j ≤ s.mem.level a1 at hla
    change j ≤ s.mem.level b1 at hlb
    obtain ⟨c, hc⟩ := h.blocked j a1 b1 hj hab hla hlb
    by_cases hca : c = a
    · subst hca
      rcases hc with hsv | ⟨hvic, hw⟩
      · exact absurd hsv (c3 j)
      · rcases c4 j hj ⟨a1, b1, hab, hla, hlb⟩ hvic hw with hp | ⟨c', hc', hb⟩
        · refine ⟨c, Or.inr ⟨hvic, ?_⟩⟩
          show upd s.pc c p' c = _ ∨ ∃ k, upd s.pc c p' c = _
          rw [upd_same]
          exact hp
        · exact ⟨c', FilterLock.blockedAt_frame s _ j c' (hpc' c' hc') rfl hb⟩
    · exact ⟨c, FilterLock.blockedAt_frame s _ j c (hpc' c hca) rfl hc⟩

theorem FilterLock.Inv.lt_of_level {n : Nat} {s : FilterLock.Sys} (h : FilterLock.Inv n s)
    (u : Nat) (hu : 1 ≤ s.mem.level u) : u < n := by
  by_contra hn
  have hok := h.ok u
  rw [h.out u (by omega)] at hok
  change s.mem.level u = 0 at hok
  omega

theorem FilterLock.filter_step_idle {n : Nat} {s : FilterLock.Sys} (h : FilterLock.Inv n s)
    (a : Nat) (ha : a < n) (hpc : s.pc a = FilterLock.PC.idle) :
    FilterLock.Inv n (FilterLock.step n s a) := by
  have hst : FilterLock.step n s a = ⟨s.mem, upd s.pc a (FilterLock.enter n 1)⟩ := by
    simp only [FilterLock.step, hpc]
  rw [hst]
  have hok := h.ok a
  rw [hpc] at hok
  change s.mem.level a = 0 at hok
  apply FilterLock.inv_pc_only h a ha
  · rw [hok]
    exact FilterLock.levelOk_enter_first n
  · intro j k hp
    exact absurd hp (FilterLock.enter_ne_scan n 1 j k)
  · intro j
    rw [hpc]
    simp
  · intro j _ _ _ hw
    rw [hpc] at hw
    simp at hw

theorem FilterLock.filter_step_checkVictim {n : Nat} {s : FilterLock.Sys}
    (h : FilterLock.Inv n s) (a : Nat) (ha : a < n) (i : Nat)
    (hpc : s.pc a = FilterLock.PC.checkVictim i) :
    FilterLock.Inv n (FilterLock.step n s a) := by
  have hok := h.ok a
  rw [hpc] at hok
  obtain ⟨hi1, hi2, hl⟩ : 1 ≤ i ∧ i < n ∧ s.mem.level a = i := hok
  by_cases hv : s.mem.victim i ≠ a
  · have hst : FilterLock.step n s a = ⟨s.mem, upd s.pc a (FilterLock.enter n (i + 1))⟩ := by
      simp only [FilterLock.step, hpc]
      rw [if_pos hv]
    rw [hst]
    apply FilterLock.inv_pc_only h a ha
    · rw [hl]
      exact FilterLock.levelOk_enter_next n i hi1 hi2
    · intro j k hp
      exact absurd hp (FilterLock.enter_ne_scan n (i + 1) j k)
    · intro j
      rw [hpc]
      simp
    · intro j _ _ hvic hw
      rw [hpc] at hw
      simp only [FilterLock.PC.checkVictim.injEq, exists_const, or_false] at hw
      simp at hw
      rw [hw] at hv
      exact absurd hvic hv
  · have hst : FilterLock.step n s a = ⟨s.mem, upd s.pc a (FilterLock.PC.scan i 0)⟩ := by
      simp only [FilterLock.step, hpc]
      rw [if_neg hv]
    rw [hst]
    apply FilterLock.inv_pc_only h a ha
    · exact ⟨hi1, hi2, hl⟩
    · intro j k hp _ u hu
      simp only [FilterLock.PC.scan.injEq] at hp
      omega
    · intro j
      rw [hpc]
      simp
    · intro j _ _ _ hw
      rw [hpc] at hw
      simp at hw
      rw [hw]
      exact Or.inl (Or.inr ⟨0, rfl⟩)

theorem FilterLock.filter_step_scan {n : Nat} {s : FilterLock.Sys}
    (h : FilterLock.Inv n s) (a : Nat) (ha : a < n) (i k : Nat)
    (hpc : s.pc a = FilterLock.PC.scan i k) :
    FilterLock.Inv n (FilterLock.step n s a) := by
  have hok := h.ok a
  rw [hpc] at hok
  obtain ⟨hi1, hi2, hl⟩ : 1 ≤ i ∧ i < n ∧ s.mem.level a = i := hok
  have hc3 : ∀ j, s.pc a ≠ FilterLock.PC.setVictim j := by
    intro j
    rw [hpc]
    simp
  have hwait : ∀ j, (s.pc a = FilterLock.PC.checkVictim j ∨
      ∃ k', s.pc a = FilterLock.PC.scan j k') → j = i := by
    intro j hw
    rw [hpc] at hw
    simp at hw
    exact hw.symm
  by_cases hkn : k < n
  · by_cases hka : k = a
    · -- `continue`
      have hst : FilterLock.step n s a = ⟨s.mem, upd s.pc a (FilterLock.PC.scan i (k + 1))⟩ := by
        simp only [FilterLock.step, hpc]
        rw [if_pos hkn, if_pos hka]
      rw [hst]
      apply FilterLock.inv_pc_only h a ha
      · exact ⟨hi1, hi2, hl⟩
      · intro j k' hp hvic u hu hua
        simp only [FilterLock.PC.scan.injEq] at hp
        obtain ⟨e1, e2⟩ := hp
        subst e1 e2
        exact h.scanned a i k hpc hvic u (by omega) hua
      · exact hc3
      · intro j _ _ _ hw
        rw [hwait j hw]
        exact Or.inl (Or.inr ⟨k + 1, rfl⟩)
    · by_cases hlv : s.mem.level k ≥ i
      · -- `found = true`
        have hst : FilterLock.step n s a =
            ⟨s.mem, upd s.pc a (FilterLock.PC.checkVictim i)⟩ := by
          simp only [FilterLock.step, hpc]
          rw [if_pos hkn, if_neg hka, if_pos hlv]
        rw [hst]
        apply FilterLock.inv_pc_only h a ha
        · exact ⟨hi1, hi2, hl⟩
        · intro j k' hp
          exact absurd hp (by simp)
        · exact hc3
        · intro j _ _ _ hw
          rw [hwait j hw]
          exact Or.inl (Or.inl rfl)
      · have hst : FilterLock.step n s a =
            ⟨s.mem, upd s.pc a (FilterLock.PC.scan i (k + 1))⟩ := by
          simp only [FilterLock.step, hpc]
          rw [if_pos hkn, if_neg hka, if_neg hlv]
        rw [hst]
        apply FilterLock.inv_pc_only h a ha
        · exact ⟨hi1, hi2, hl⟩
        · intro j k' hp hvic u hu hua
          simp only [FilterLock.PC.scan.injEq] at hp
          obtain ⟨e1, e2⟩ := hp
          subst e1 e2
          by_cases huk : u = k
          · rw [huk]
            exact Or.inl (by omega)
          · exact h.scanned a i k hpc hvic u (by omega) hua
        · exact hc3
        · intro j _ _ _ hw
          rw [hwait j hw]
          exact Or.inl (Or.inr ⟨k + 1, rfl⟩)
  · -- the scan found nobody
    have hst : FilterLock.step n s a = ⟨s.mem, upd s.pc a (FilterLock.enter n (i + 1))⟩ := by
      simp only [FilterLock.step, hpc]
      rw [if_neg hkn]
    rw [hst]
    apply FilterLock.inv_pc_only h a ha
    · rw [hl]
      exact FilterLock.levelOk_enter_next n i hi1 hi2
    · intro j k' hp
      exact absurd hp (FilterLock.enter_ne_scan n (i + 1) j k')
    · exact hc3
    · intro j hj hex hvic hw
      have hji := hwait j hw
      subst hji
      obtain ⟨a1, b1, hab, hla, hlb⟩ := hex
      have key : ∀ u, u ≠ a → j ≤ s.mem.level u →
          ∃ c, c ≠ a ∧ FilterLock.blockedAt s j c := by
        intro u hua hlu
        have hun : u < n := h.lt_of_level u (by omega)
        rcases h.scanned a j k hpc hvic u (by omega) hua with hlt | hp
        · omega
        · exact ⟨u, hua, Or.inl hp⟩
      by_cases ha1 : a1 = a
      · have hb1 : b1 ≠ a := fun e => hab (ha1.trans e.symm)
        exact Or.inr (key b1 hb1 hlb)
      · exact Or.inr (key a1 ha1 hla)

theorem FilterLock.filter_step_crit {n : Nat} {s : FilterLock.Sys}
    (h : FilterLock.Inv n s) (a : Nat) (ha : a < n)
    (hpc : s.pc a = FilterLock.PC.crit) :
    FilterLock.Inv n (FilterLock.step n s a) := by
  have hok := h.ok a
  rw [hpc] at hok
  change s.mem.level a = n - 1 at hok
  have hst : FilterLock.step n s a = ⟨s.mem, upd s.pc a FilterLock.PC.rel⟩ := by
    simp only [FilterLock.step, hpc]
    rw [if_pos hok]
  rw [hst]
  apply FilterLock.inv_pc_only h a ha
  · exact hok
  · intro j k hp
    exact absurd hp (by simp)
  · intro j
    rw [hpc]
    simp
  · intro j _ _ _ hw
    rw [hpc] at hw
    simp at hw

theorem FilterLock.not_blockedAt_of_pc (s : FilterLock.Sys) (j a : Nat)
    (h1 : s.pc a ≠ FilterLock.PC.setVictim j) (h2 : s.pc a ≠ FilterLock.PC.checkVictim j)
    (h3 : ∀ k, s.pc a ≠ FilterLock.PC.scan j k) : ¬ FilterLock.blockedAt s j a := by
  rintro (h | ⟨-, h | ⟨k, h⟩⟩)
  · exact h1 h
  · exact h2 h
  · exact h3 k h

theorem FilterLock.filter_step_setLevel {n : Nat} {s : FilterLock.Sys}
    (h : FilterLock.Inv n s) (a : Nat) (ha : a < n) (i : Nat)
    (hpc : s.pc a = FilterLock.PC.setLevel i) :
    FilterLock.Inv n (FilterLock.step n s a) := by
  have hok := h.ok a
  rw [hpc] at hok
  obtain ⟨hi1, hi2, hl⟩ : 1 ≤ i ∧ i < n ∧ s.mem.level a + 1 = i := hok
  have hst : FilterLock.step n s a =
      ⟨⟨upd s.mem.level a i, s.mem.victim⟩, upd s.pc a (FilterLock.PC.setVictim i)⟩ := by
    simp only [FilterLock.step, hpc]
  rw [hst]
  have hpc' : ∀ u, u ≠ a → upd s.pc a (FilterLock.PC.setVictim i) u = s.pc u :=
    fun u hu => upd_other _ _ _ _ hu
  have hlv' : ∀ u, u ≠ a → upd s.mem.level a i u = s.mem.level u :=
    fun u hu => upd_other _ _ _ _ hu
  refine ⟨?_, ?_, ?_, ?_⟩
  · intro t ht
    show upd s.pc a _ t = _
    rw [hpc' t (by omega)]
    exact h.out t ht
  · intro t
    show FilterLock.levelOk n (upd s.pc a _ t) (upd s.mem.level a i t)
    by_cases hta : t = a
    · rw [hta, upd_same, upd_same]
      exact ⟨hi1, hi2, rfl⟩
    · rw [hpc' t hta, hlv' t hta]
      exact h.ok t
  · intro v j k hv hvic u hu huv
    change upd s.pc a _ v = _ at hv
    change s.mem.victim j = v at hvic
    show upd s.mem.level a i u < j ∨ upd s.pc a _ u = _
    have hva : v ≠ a := by
      intro e
      rw [e, upd_same] at hv
      exact absurd hv (by simp)
    rw [hpc' v hva] at hv
    by_cases hua : u = a
    · rw [hua, upd_same, upd_same]
      rcases h.scanned v j k hv hvic u hu huv with hlt | hp
      · rw [hua] at hlt
        by_cases hij : i = j
        · exact Or.inr (by rw [hij])
        · exact Or.inl (by omega)
      · rw [hua, hpc] at hp
        exact absurd hp (by simp)
    · rw [hlv' u hua, hpc' u hua]
      exact h.scanned v j k hv hvic u hu huv
  · intro j a1 b1 hj hab hla hlb
    change j ≤ upd s.mem.level a i a1 at hla
    change j ≤ upd s.mem.level a i b1 at hlb
    by_cases hij : i = j
    · exact ⟨a, Or.inl (by show upd s.pc a _ a = _; rw [upd_same, hij])⟩
    · have pre : ∀ x, j ≤ upd s.mem.level a i x → j ≤ s.mem.level x := by
        intro x hx
        by_cases hxa : x = a
        · rw [hxa, upd_same] at hx
          rw [hxa]
          omega
        · rw [hlv' x hxa] at hx
          exact hx
      obtain ⟨c, hc⟩ := h.blocked j a1 b1 hj hab (pre a1 hla) (pre b1 hlb)
      have hca : c ≠ a := by
        intro e
        rw [e] at hc
        exact FilterLock.not_blockedAt_of_pc s j a (by rw [hpc]; simp) (by rw [hpc]; simp)
          (fun k => by rw [hpc]; simp) hc
      exact ⟨c, FilterLock.blockedAt_frame s _ j c (hpc' c hca) rfl hc⟩

theorem FilterLock.filter_step_setVictim {n : Nat} {s : FilterLock.Sys}
    (h : FilterLock.Inv n s) (a : Nat) (ha : a < n) (i : Nat)
    (hpc : s.pc a = FilterLock.PC.setVictim i) :
    FilterLock.Inv n (FilterLock.step n s a) := by
  have hok := h.ok a
  rw [hpc] at hok
  obtain ⟨hi1, hi2, hl⟩ : 1 ≤ i ∧ i < n ∧ s.mem.level a = i := hok
  have hst : FilterLock.step n s a =
      ⟨⟨s.mem.level, upd s.mem.victim i a⟩, upd s.pc a (FilterLock.PC.checkVictim i)⟩ := by
    simp only [FilterLock.step, hpc]
  rw [hst]
  have hpc' : ∀ u, u ≠ a → upd s.pc a (FilterLock.PC.checkVictim i) u = s.pc u :=
    fun u hu => upd_other _ _ _ _ hu
  have hvc' : ∀ j, j ≠ i → upd s.mem.victim i a j = s.mem.victim j :=
    fun j hj => upd_other _ _ _ _ hj
  refine ⟨?_, ?_, ?_, ?_⟩
  · intro t ht
    show upd s.pc a _ t = _
    rw [hpc' t (by omega)]
    exact h.out t ht
  · intro t
    show FilterLock.levelOk n (upd s.pc a _ t) (s.mem.level t)
    by_cases hta : t = a
    · rw [hta, upd_same]
      exact ⟨hi1, hi2, hl⟩
    · rw [hpc' t hta]
      exact h.ok t
  · intro v j k hv hvic u hu huv
    change upd s.pc a _ v = _ at hv
    change upd s.mem.victim i a j = v at hvic
    show s.mem.level u < j ∨ upd s.pc a _ u = _
    have hva : v ≠ a := by
      intro e
      rw [e, upd_same] at hv
      exact absurd hv (by simp)
    rw [hpc' v hva] at hv
    have hji : j ≠ i := by
      intro e
      rw [e, upd_same] at hvic
      exact hva hvic.symm
    rw [hvc' j hji] at hvic
    rcases h.scanned v j k hv hvic u hu huv with hlt | hp
    · exact Or.inl hlt
    · by_cases hua : u = a
      · rw [hua, hpc] at hp
        simp only [FilterLock.PC.setVictim.injEq] at hp
        exact absurd hp.symm hji
      · rw [hpc' u hua]
        exact Or.inr hp
  · intro j a1 b1 hj hab hla hlb
    change j ≤ s.mem.level a1 at hla
    change j ≤ s.mem.level b1 at hlb
    by_cases hji : j = i
    · refine ⟨a, Or.inr ⟨?_, Or.inl ?_⟩⟩
      · show upd s.mem.victim i a j = a
        rw [hji, upd_same]
      · show upd s.pc a _ a = _
        rw [upd_same, hji]
    · obtain ⟨c, hc⟩ := h.blocked j a1 b1 hj hab hla hlb
      have hca : c ≠ a := by
        intro e
        rw [e] at hc
        refine FilterLock.not_blockedAt_of_pc s j a ?_ (by rw [hpc]; simp)
          (fun k => by rw [hpc]; simp) hc
        rw [hpc]
        simp only [ne_eq, FilterLock.PC.setVictim.injEq]
        exact fun e => hji e.symm
      exact ⟨c, FilterLock.blockedAt_frame s _ j c (hpc' c hca) (hvc' j hji) hc⟩

theorem FilterLock.filter_step_rel {n : Nat} {s : FilterLock.Sys}
    (h : FilterLock.Inv n s) (a : Nat) (ha : a < n)
    (hpc : s.pc a = FilterLock.PC.rel) :
    FilterLock.Inv n (FilterLock.step n s a) := by
  have hst : FilterLock.step n s a =
      ⟨⟨upd s.mem.level a 0, s.mem.victim⟩, upd s.pc a FilterLock.PC.idle⟩ := by
    simp only [FilterLock.step, hpc]
  rw [hst]
  have hpc' : ∀ u, u ≠ a → upd s.pc a FilterLock.PC.idle u = s.pc u :=
    fun u hu => upd_other _ _ _ _ hu
  have hlv' : ∀ u, u ≠ a → upd s.mem.level a 0 u = s.mem.level u :=
    fun u hu => upd_other _ _ _ _ hu
  refine ⟨?_, ?_, ?_, ?_⟩
  · intro t ht
    show upd s.pc a _ t = _
    rw [hpc' t (by omega)]
    exact h.out t ht
  · intro t
    show FilterLock.levelOk n (upd s.pc a _ t) (upd s.mem.level a 0 t)
    by_cases hta : t = a
    · rw [hta, upd_same, upd_same]
      rfl
    · rw [hpc' t hta, hlv' t hta]
      exact h.ok t
  · intro v j k hv hvic u hu huv
    change upd s.pc a _ v = _ at hv
    change s.mem.victim j = v at hvic
    show upd s.mem.level a 0 u < j ∨ upd s.pc a _ u = _
    have hva : v ≠ a := by
      intro e
      rw [e, upd_same] at hv
      exact absurd hv (by simp)
    rw [hpc' v hva] at hv
    have hj : 1 ≤ j := by
      have := h.ok v
      rw [hv] at this
      exact this.1
    by_cases hua : u = a
    · rw [hua, upd_same]
      exact Or.inl (by omega)
    · rw [hlv' u hua, hpc' u hua]
      exact h.scanned v j k hv hvic u hu huv
  · intro j a1 b1 hj hab hla hlb
    change j ≤ upd s.mem.level a 0 a1 at hla
    change j ≤ upd s.mem.level a 0 b1 at hlb
    have pre : ∀ x, j ≤ upd s.mem.level a 0 x → j ≤ s.mem.level x := by
      intro x hx
      by_cases hxa : x = a
      · rw [hxa, upd_same] at hx
        omega
      · rw [hlv' x hxa] at hx
        exact hx
    obtain ⟨c, hc⟩ := h.blocked j a1 b1 hj hab (pre a1 hla) (pre b1 hlb)
    have hca : c ≠ a := by
      intro e
      rw [e] at hc
      exact FilterLock.not_blockedAt_of_pc s j a (by rw [hpc]; simp) (by rw [hpc]; simp)
        (fun k => by rw [hpc]; simp) hc
    exact ⟨c, FilterLock.blockedAt_frame s _ j c (hpc' c hca) rfl hc⟩

theorem FilterLock.filter_inv_of_reachable (n : Nat) (s : FilterLock.Sys)
    (hr : Reachable FilterLock.init (FilterLock.step n) n s) : FilterLock.Inv n s := by
  induction hr with
  | init =>
    refine ⟨fun _ _ => rfl, fun _ => rfl, ?_, ?_⟩
    · intro v j k hv
      simp [FilterLock.init] at hv
    · intro j a b hj _ hla
      change j ≤ 0 at hla
      omega
  | step s a _ ha ih =>
    cases hpc : s.pc a with
    | idle => exact FilterLock.filter_step_idle ih a ha hpc
    | setLevel i => exact FilterLock.filter_step_setLevel ih a ha i hpc
    | setVictim i => exact FilterLock.filter_step_setVictim ih a ha i hpc
    | checkVictim i => exact FilterLock.filter_step_checkVictim ih a ha i hpc
    | scan i k => exact FilterLock.filter_step_scan ih a ha i k hpc
    | crit => exact FilterLock.filter_step_crit ih a ha hpc
    | rel => exact FilterLock.filter_step_rel ih a ha hpc
    | failed =>
      have := ih.ok a
      rw [hpc] at this
      exact absurd this id

theorem FilterLock.Inv.level_of_blockedAt {n : Nat} {s : FilterLock.Sys}
    (h : FilterLock.Inv n s) (j c : Nat) (hc : FilterLock.blockedAt s j c) :
    s.mem.level c = j ∧ ¬ FilterLock.holds s c := by
  have hok := h.ok c
  rcases hc with hp | ⟨-, hp | ⟨k, hp⟩⟩
  · rw [hp] at hok
    exact ⟨hok.2.2, by simp [FilterLock.holds, hp]⟩
  · rw [hp] at hok
    exact ⟨hok.2.2, by simp [FilterLock.holds, hp]⟩
  · rw [hp] at hok
    exact ⟨hok.2.2, by simp [FilterLock.holds, hp]⟩

theorem FilterLock.mem_atLevel (n : Nat) (s : FilterLock.Sys) (j t : Nat) :
    t ∈ FilterLock.atLevel n s j ↔ t < n ∧ j ≤ s.mem.level t := by
  simp [FilterLock.atLevel]

theorem FilterLock.Inv.atLevel_card {n : Nat} {s : FilterLock.Sys} (h : FilterLock.Inv n s) :
    ∀ j, 1 ≤ j → j ≤ n → (FilterLock.atLevel n s j).card + j ≤ n + 1 := by
  intro j hj
  induction j, hj using Nat.le_induction with
  | base =>
    intro _
    have : (FilterLock.atLevel n s 1).card ≤ (Finset.range n).card :=
      Finset.card_filter_le _ _
    rw [Finset.card_range] at this
    omega
  | succ j hj ih =>
    intro hjn
    have ih' := ih (by omega)
    have hsub : FilterLock.atLevel n s (j + 1) ⊆ FilterLock.atLevel n s j := by
      intro x hx
      rw [FilterLock.mem_atLevel] at hx ⊢
      exact ⟨hx.1, by omega⟩
    by_cases hc : 1 < (FilterLock.atLevel n s j).card
    · obtain ⟨a1, ha1, b1, hb1, hab⟩ := Finset.one_lt_card.mp hc
      rw [FilterLock.mem_atLevel] at ha1 hb1
      obtain ⟨c, hcb⟩ := h.blocked j a1 b1 hj hab ha1.2 hb1.2
      have hlc := (h.level_of_blockedAt j c hcb).1
      have hcn : c < n := h.lt_of_level c (by omega)
      have hlt : FilterLock.atLevel n s (j + 1) ⊂ FilterLock.atLevel n s j := by
        refine Finset.ssubset_iff_subset_ne.mpr ⟨hsub, fun e => ?_⟩
        have hin : c ∈ FilterLock.atLevel n s j :=
          (FilterLock.mem_atLevel n s j c).mpr ⟨hcn, by omega⟩
        rw [← e, FilterLock.mem_atLevel] at hin
        omega
      have := Finset.card_lt_card hlt
      omega
    · have := Finset.card_le_card hsub
      omega

theorem FilterLock.Inv.level_of_holds {n : Nat} {s : FilterLock.Sys}
    (h : FilterLock.Inv n s) (a : Nat) (ha : FilterLock.holds s a) :
    s.mem.level a = n - 1 ∧ a < n := by
  have hok := h.ok a
  have hlt : a < n := by
    by_contra hn
    have := h.out a (by omega)
    rcases ha with e | e | e <;> rw [this] at e <;> exact absurd e (by simp)
  rcases ha with e | e | e
  · rw [e] at hok
    exact ⟨hok, hlt⟩
  · rw [e] at hok
    exact ⟨hok, hlt⟩
  · rw [e] at hok
    exact absurd hok id

/-- C3: for every `MAX_NUM_THREADS = n`, in every state reachable from a
fresh `FilterLock` by interleaving the steps of threads `0 .. n-1` (one read or
write of `level[]` or `victim[]` per step), no two distinct threads have both
completed the level loop of `acquire` without having finished `release`. -/
theorem C3_filter_mutual_exclusion (n : Nat) (s : FilterLock.Sys)
    (hr : Reachable FilterLock.init (FilterLock.step n) n s) (a b : Nat)
    (ha : FilterLock.holds s a) (hb : FilterLock.holds s b) : a = b := by
  have h := FilterLock.filter_inv_of_reachable n s hr
  obtain ⟨hla, han⟩ := h.level_of_holds a ha
  obtain ⟨hlb, hbn⟩ := h.level_of_holds b hb
  by_contra hab
  have hn : 1 ≤ n - 1 := by omega
  obtain ⟨c, hc⟩ := h.blocked (n - 1) a b hn hab (by omega) (by omega)
  obtain ⟨hlc, hnc⟩ := h.level_of_blockedAt (n - 1) c hc
  have hcn : c < n := h.lt_of_level c (by omega)
  have hac : a ≠ c := fun e => hnc (e ▸ ha)
  have hbc : b ≠ c := fun e => hnc (e ▸ hb)
  have hsub : ({a, b, c} : Finset Nat) ⊆ FilterLock.atLevel n s (n - 1) := by
    intro x hx
    simp only [Finset.mem_insert, Finset.mem_singleton] at hx
    rw [FilterLock.mem_atLevel]
    rcases hx with e | e | e <;> subst e
    · exact ⟨han, by omega⟩
    · exact ⟨hbn, by omega⟩
    · exact ⟨hcn, by omega⟩
  have h3 : ({a, b, c} : Finset Nat).card = 3 :=
    Finset.card_eq_three.mpr ⟨a, b, c, hab, hac, hbc, rfl⟩
  have hle := Finset.card_le_card hsub
  have hcard := h.atLevel_card (n - 1) hn (by omega)
  omega

/-- Witness for C3: three threads; thread 2 runs its whole `acquire` and
holds the lock while thread 0 is held back at level 1. -/
theorem C3_filter_mutual_exclusion_witness :
    FilterLock.holds
      (run (FilterLock.step 3) (List.replicate 15 2 ++ [0, 0, 0, 0, 0, 0]) FilterLock.init) 2 ∧
    ((2 : Nat) = 2) :=
  ⟨Or.inl (by decide),
    C3_filter_mutual_exclusion 3
      (run (FilterLock.step 3) (List.replicate 15 2 ++ [0, 0, 0, 0, 0, 0]) FilterLock.init)
      (run_reachable _ _ _ _ _ Reachable.init (by decide)) 2 2
      (Or.inl (by decide)) (Or.inl (by decide))⟩

end Prob3
